import Mathlib

/-!
Verification model of the panopticon-lattice repository.

Texts are modelled as `List Char`; Python floats are modelled as rationals
(`ℚ`); Python's process-wide string/char hash and the random draws are passed
in explicitly as function parameters, since they are the only sources of
nondeterminism.  The regular-expression scanning of `channels.py` over the
fixed pattern `def\s+(\w+)\s*\(` is modelled explicitly: the three character
classes involved (`\w`, `\s` and the literals) are disjoint on the ASCII
fragment the repository works in, so the greedy left-to-right match of
Python's `re.sub`/`re.findall` is the deterministic scanner written below.
-/

set_option maxHeartbeats 1000000

namespace Panopticon

/-- Styles of `channels.py` (`StyleType = Literal["neutral", "snake_case", "camel_case"]`). -/
inductive Style where
  | neutral
  | snake_case
  | camel_case
deriving DecidableEq, Repr

/-- Python `\w` on the ASCII fragment: `[a-zA-Z0-9_]`. -/
def isWordChar (c : Char) : Bool :=
  ('a' ≤ c && c ≤ 'z') || ('A' ≤ c && c ≤ 'Z') || ('0' ≤ c && c ≤ '9') || c == '_'

/-- Python `\s` on the ASCII fragment: space, tab, newline, carriage return,
vertical tab, form feed. -/
def isSpaceChar (c : Char) : Bool :=
  c == ' ' || c == '\t' || c == '\n' || c == '\r' || c == '\x0b' || c == '\x0c'

/-- Character class `[a-z0-9]` of the substitution in `_camel_to_snake`. -/
def isLowerOrDigit (c : Char) : Bool :=
  ('a' ≤ c && c ≤ 'z') || ('0' ≤ c && c ≤ '9')

/-- Character class `[A-Z]`. -/
def isUpperChar (c : Char) : Bool :=
  'A' ≤ c && c ≤ 'Z'

/-- Character class `[a-z]`. -/
def isLowerChar (c : Char) : Bool :=
  'a' ≤ c && c ≤ 'z'

/-- ASCII letter (a "cased" character for `str.title`). -/
def isAsciiLetter (c : Char) : Bool :=
  ('a' ≤ c && c ≤ 'z') || ('A' ≤ c && c ≤ 'Z')

/-- Scanning pass of `re.sub('([a-z0-9])([A-Z])', r'\1_\2', name)`: the
two-character pattern is matched left to right without overlap, inserting an
underscore between the two matched characters. -/
def camelToSnakeCore : List Char → List Char
  | a :: b :: rest =>
    if isLowerOrDigit a && isUpperChar b then a :: '_' :: b :: camelToSnakeCore rest
    else a :: camelToSnakeCore (b :: rest)
  | l => l

/-- Model of `CodeChannel._camel_to_snake`: the substitution pass followed by
`str.lower()`. -/
def camel_to_snake (name : List Char) : List Char :=
  (camelToSnakeCore name).map Char.toLower

/-- Model of Python `str.split('_')`: split at every underscore, keeping empty
components (`"" |-> [""]`). -/
def splitUnderscore : List Char → List (List Char)
  | [] => [[]]
  | c :: rest =>
    if c == '_' then [] :: splitUnderscore rest
    else
      match splitUnderscore rest with
      | [] => [[c]]
      | g :: gs => (c :: g) :: gs

/-- Model of Python `str.title()` on the ASCII fragment: a letter following a
non-letter is uppercased, a letter following a letter is lowercased, other
characters are unchanged (digits are uncased and restart a "word"). -/
def pyTitleGo : Bool → List Char → List Char
  | _, [] => []
  | prevCased, c :: rest =>
    if isAsciiLetter c then
      (if prevCased then c.toLower else c.toUpper) :: pyTitleGo true rest
    else
      c :: pyTitleGo false rest

/-- Python `str.title()`. -/
def pyTitle (s : List Char) : List Char :=
  pyTitleGo false s

/-- Model of `CodeChannel._snake_to_camel`: split on `'_'`, keep the first
component as is, `title()` the remaining components and concatenate. -/
def snake_to_camel (name : List Char) : List Char :=
  match splitUnderscore name with
  | [] => []
  | g :: gs => g ++ (gs.map pyTitle).flatten

/-- One anchored match of the pattern `def\s+(\w+)\s*\(` at the head of the
text.  The classes `\s`, `\w` and the literal `(` are pairwise disjoint, so
the greedy runs below are the only possible match.  Returns
(whole match `group(0)`, captured name `group(1)`, text after the match). -/
def matchDefAt (cs : List Char) : Option (List Char × List Char × List Char) :=
  match cs with
  | a :: b :: c :: rest =>
    if a == 'd' && b == 'e' && c == 'f' then
      let sp1 := rest.takeWhile isSpaceChar
      let r1 := rest.dropWhile isSpaceChar
      let nm := r1.takeWhile isWordChar
      let r2 := r1.dropWhile isWordChar
      let sp2 := r2.takeWhile isSpaceChar
      let r3 := r2.dropWhile isSpaceChar
      if sp1.isEmpty then none
      else if nm.isEmpty then none
      else if r3.head? == some '(' then
        some (a :: b :: c :: (sp1 ++ nm ++ sp2 ++ ['(']), nm, r3.tail)
      else none
    else none
  | _ => none

/-- Well-definedness of the scanners below: a match consumes at least one
character, so the text after a match is strictly shorter. -/
theorem matchDefAt_rest_length {cs m nm rest : List Char}
    (h : matchDefAt cs = some (m, nm, rest)) : rest.length < cs.length := by
  match cs with
  | [] => simp [matchDefAt] at h
  | [a] => simp [matchDefAt] at h
  | [a, b] => simp [matchDefAt] at h
  | a :: b :: c :: t =>
    simp only [matchDefAt] at h
    split at h
    · split at h
      · simp at h
      · split at h
        · simp at h
        · split at h
          · simp only [Option.some.injEq, Prod.mk.injEq] at h
            obtain ⟨-, -, hrest⟩ := h
            have l0 : ((((t.dropWhile isSpaceChar).dropWhile isWordChar).dropWhile
                isSpaceChar).tail).length ≤
                (((t.dropWhile isSpaceChar).dropWhile isWordChar).dropWhile
                  isSpaceChar).length :=
              (List.tail_sublist _).length_le
            have l1 : ((((t.dropWhile isSpaceChar).dropWhile isWordChar).dropWhile
                isSpaceChar)).length ≤
                ((t.dropWhile isSpaceChar).dropWhile isWordChar).length :=
              (List.dropWhile_sublist _).length_le
            have l2 : ((t.dropWhile isSpaceChar).dropWhile isWordChar).length ≤
                (t.dropWhile isSpaceChar).length := (List.dropWhile_sublist _).length_le
            have l3 : (t.dropWhile isSpaceChar).length ≤ t.length :=
              (List.dropWhile_sublist _).length_le
            subst hrest
            simp only [List.length_cons]
            omega
          · simp at h
    · simp at h

/-- Fuelled scanning pass of `re.sub(r'def\s+(\w+)\s*\(', replacer, code)`
with the replacer of `CodeChannel.inject`: a match whose captured name starts
with `'_'` is reproduced verbatim (`match.group(0)`), any other match is
replaced by `'def ' + conv(name) + '('`; positions without a match are copied
and the scan advances one character; after a match the scan resumes at the
match end.  The fuel is a structural-recursion device only: a match consumes
at least one character, so any fuel of at least the text length gives the
same result (`injectScanF_congr` below). -/
def injectScanF (conv : List Char → List Char) : ℕ → List Char → List Char
  | _, [] => []
  | 0, _ :: _ => []
  | fuel + 1, c :: cs =>
    match matchDefAt (c :: cs) with
    | some (m, nm, rest) =>
      if nm.head? == some '_' then m ++ injectScanF conv fuel rest
      else 'd' :: 'e' :: 'f' :: ' ' :: (conv nm ++ '(' :: injectScanF conv fuel rest)
    | none => c :: injectScanF conv fuel cs

/-- The substitution scan of `CodeChannel.inject`. -/
def injectScan (conv : List Char → List Char) (l : List Char) : List Char :=
  injectScanF conv l.length l

/-- Fuelled scanning pass of `re.findall(r'def\s+(\w+)\s*\(', code)`: the
captured names of the non-overlapping left-to-right matches, in order. -/
def findAllDefsF : ℕ → List Char → List (List Char)
  | _, [] => []
  | 0, _ :: _ => []
  | fuel + 1, c :: cs =>
    match matchDefAt (c :: cs) with
    | some (_, nm, rest) => nm :: findAllDefsF fuel rest
    | none => findAllDefsF fuel cs

/-- The capture scan of `CodeChannel.detect`. -/
def findAllDefs (l : List Char) : List (List Char) :=
  findAllDefsF l.length l

/-- Model of `CodeChannel.inject(code, style)`. -/
def inject (code : List Char) (style : Style) : List Char :=
  match style with
  | .neutral => code
  | .snake_case => injectScan camel_to_snake code
  | .camel_case => injectScan snake_to_camel code

/-- Test `re.search(r'[a-z][A-Z]', name)`: some adjacent lowercase-letter /
uppercase-letter pair. -/
def hasCamelTransition : List Char → Bool
  | a :: b :: rest => (isLowerChar a && isUpperChar b) || hasCamelTransition (b :: rest)
  | _ => false

/-- The non-private function names of a text: the captured names that do not
start with `'_'` (the `func_names` filter of `CodeChannel.detect`). -/
def publicDefNames (code : List Char) : List (List Char) :=
  (findAllDefs code).filter (fun n => !(n.head? == some '_'))

/-- Model of `CodeChannel.detect(code)`. -/
def detect (code : List Char) : Style :=
  let ms := findAllDefs code
  if ms.isEmpty then Style.neutral
  else
    let func_names := publicDefNames code
    if func_names.isEmpty then Style.neutral
    else
      let snake_count := (func_names.filter (fun n => n.contains '_')).length
      let camel_count :=
        (func_names.filter (fun n => !(n.contains '_') && hasCamelTransition n)).length
      if camel_count < snake_count then Style.snake_case
      else if snake_count < camel_count then Style.camel_case
      else Style.neutral

/-- A public identifier is convertible to a signalling style when the renamed
identifier actually carries that style's marker, i.e. the marker `detect`
counts: the underscore of `snake_case`, the internal case transition of
`camel_case`.  (An identifier such as `foo1` has neither marker, so `foo_1`
is not convertible to `camel_case`: its conversion `foo1` shows no camel
transition.) -/
def ConvertsTo (nm : List Char) : Style → Bool
  | .snake_case => (camel_to_snake nm).contains '_'
  | .camel_case => hasCamelTransition (snake_to_camel nm)
  | .neutral => false

/-- The well-formedness a replacer's conversion function enjoys on the names
the scanner feeds it: a nonempty public word-identifier is mapped to a
nonempty word-identifier.  Both `camel_to_snake` and `snake_to_camel` satisfy
it. -/
def ConvOk (conv : List Char → List Char) : Prop :=
  ∀ nm : List Char, nm ≠ [] → nm.head? ≠ some '_' → (∀ c ∈ nm, isWordChar c = true) →
    conv nm ≠ [] ∧ (∀ c ∈ conv nm, isWordChar c = true)

/-! Model of `src/agents/base_worker.py` (class `BaseWorker`).  The `deque`
with `maxlen` is a bounded FIFO list; floats are rationals. -/

/-- Memory entry `{'code': ..., 'task': ...}`. -/
structure MemItem where
  code : List Char
  task : Option String
deriving DecidableEq, Repr

/-- Append on a Python deque with a maxlen bound: the oldest entries are dropped from
the left when the capacity is exceeded. -/
def pushBounded (maxlen : ℕ) (mem : List MemItem) (item : MemItem) : List MemItem :=
  let m := mem ++ [item]
  if maxlen < m.length then m.drop (m.length - maxlen) else m

/-- State of a `BaseWorker`; the `stats` dictionary is flattened into fields. -/
structure Worker where
  worker_id : String
  credits : ℚ
  memory_window_size : ℕ
  preferred_style : Style
  memory : List MemItem
  total_submissions : ℕ
  successful_submissions : ℕ
  failed_submissions : ℕ
  total_credits_earned : ℚ
  total_credits_spent : ℚ
deriving DecidableEq, Repr

/-- `BaseWorker.__init__`. -/
def mkWorker (id : String) (initial_credits : ℚ := 100) (memory_window_size : ℕ := 10)
    (preferred_style : Style := .neutral) : Worker :=
  { worker_id := id
    credits := initial_credits
    memory_window_size := memory_window_size
    preferred_style := preferred_style
    memory := []
    total_submissions := 0
    successful_submissions := 0
    failed_submissions := 0
    total_credits_earned := 0
    total_credits_spent := 0 }

instance : Inhabited Worker := ⟨mkWorker "worker"⟩

/-- `BaseWorker.earn_credits`. -/
def earn_credits (w : Worker) (amount : ℚ) : Worker :=
  { w with credits := w.credits + amount,
           total_credits_earned := w.total_credits_earned + amount }

/-- `BaseWorker.spend_credits`: returns the updated worker and the reported
success flag.  (The Python code is a total function of the state: it returns
`False` instead of raising when the balance is too small.) -/
def spend_credits (w : Worker) (amount : ℚ) : Worker × Bool :=
  if w.credits ≥ amount then
    ({ w with credits := w.credits - amount,
              total_credits_spent := w.total_credits_spent + amount }, true)
  else (w, false)

/-- `BaseWorker.update_memory`. -/
def update_memory (w : Worker) (code : List Char) (success : Bool)
    (task : Option String := none) : Worker :=
  let w := { w with total_submissions := w.total_submissions + 1 }
  if success then
    { w with successful_submissions := w.successful_submissions + 1,
             memory := pushBounded w.memory_window_size w.memory ⟨code, task⟩ }
  else
    { w with failed_submissions := w.failed_submissions + 1 }

/-- Python `int(float)` on the nonnegative values the repository produces:
truncation, i.e. the numerator divided by the denominator. -/
def pyIntTrunc (q : ℚ) : ℤ :=
  q.num / q.den

/-- `BaseWorker.clone(new_worker_id)`; the random `mutation_factor` drawn from
`uniform(0.8, 1.2)` is passed in. -/
def cloneWorker (w : Worker) (new_worker_id : String) (mutation_factor : ℚ) : Worker :=
  let new_memory_size := max 5 (pyIntTrunc ((w.memory_window_size : ℚ) * mutation_factor)).toNat
  let base := mkWorker new_worker_id 100 new_memory_size w.preferred_style
  { base with memory := w.memory.foldl (pushBounded new_memory_size) [] }

/-! Model of `src/simulation/environment.py` (`Commit`, `SharedRepository`).
The `random.uniform(0.5, 2.0)` utility gain of a submission is passed in. -/

/-- A `Commit` record (the timestamp plays no role in any claim and is
omitted). -/
structure CommitRec where
  author : String
  code : List Char
  parent_id : Option ℤ
  commit_id : Option ℤ
deriving DecidableEq, Repr

/-- State of a `SharedRepository` (`test_suite` is a list of abstract
predicates; drift randomness is passed to `apply_drift`). -/
structure RepoState where
  commits : List CommitRec
  global_utility : ℚ
  next_commit_id : ℤ
deriving DecidableEq, Repr

/-- `SharedRepository.__init__`. -/
def repoInit : RepoState :=
  { commits := [], global_utility := 0, next_commit_id := 0 }

/-- `SharedRepository.submit_commit`: assigns the next sequence id, appends,
adds the (random) utility gain, always returns `True`. -/
def submit_commit (st : RepoState) (c : CommitRec) (utility_gain : ℚ) :
    RepoState × Bool :=
  let c' := { c with commit_id := some st.next_commit_id }
  ({ commits := st.commits ++ [c']
     global_utility := st.global_utility + utility_gain
     next_commit_id := st.next_commit_id + 1 }, true)

/-- A whole sequence of submissions to one repository instance. -/
def submitAll (st : RepoState) : List (CommitRec × ℚ) → RepoState
  | [] => st
  | (c, g) :: rest => submitAll (submit_commit st c g).1 rest

/-- The sequence ids found in a commit log. -/
def commitIds (st : RepoState) : List ℤ :=
  st.commits.filterMap (fun c => c.commit_id)

/-! Model of `src/simulation/metrics.py` (`NashMetrics`). -/

/-- `NashMetrics.calculate_distance`: the empty population is guarded and
returns `0.0` before the division by `len(agents)` is reached. -/
def calculate_distance (agents : List Worker) : ℚ :=
  if agents = [] then 0
  else
    let neutral_count := agents.countP (fun a => a.preferred_style == Style.neutral)
    let total := agents.length
    let honest_ratio := (neutral_count : ℚ) / (total : ℚ)
    1 - honest_ratio

/-! Model of `src/overseer/recommender.py` and `src/overseer/steering.py`.

The learned parameters (embedding tables, the LSTM, the feed-forward scorer)
are carried as function-valued fields over `ℚ`: every claim about this pair of
files concerns how `predict` threads the agent key, the tokenizer and the
steering hook around those parameters, not the numerics inside them.
`lstm_last` stands for running the LSTM over the embedded token sequence and
taking the last output (`lstm_out[:, -1, :]`), `trust_predictor` for the
`Linear/ReLU/Dropout/Linear/Sigmoid` stack in inference mode.  Python's
per-process character hash is the field `char_hash`. -/

structure RecParams where
  vocab_size : ℕ := 10000
  num_agents : ℕ := 100
  agent_embedding : ℕ → List ℚ
  code_embedding : ℕ → List ℚ
  lstm_last : List (List ℚ) → List ℚ
  trust_predictor : List ℚ → ℚ
  char_hash : Char → ℤ

/-- `Recommender._tokenize_code`: hash each of the first 100 characters into
the vocabulary, then pad with `0` / truncate to length 50. -/
def tokenize_code (p : RecParams) (code : List Char) : List ℕ :=
  let tokens := (code.take 100).map (fun ch => ((p.char_hash ch) % (p.vocab_size : ℤ)).toNat)
  if tokens.length < 50 then tokens ++ List.replicate (50 - tokens.length) 0
  else tokens.take 50

/-- Pointwise difference of activation vectors (`torch` broadcasting is not
needed: all vectors involved have the model's fixed width). -/
def vecSub (a b : List ℚ) : List ℚ :=
  List.zipWith (fun x y => x - y) a b

/-- Scalar multiple of an activation vector. -/
def vecSmul (c : ℚ) (v : List ℚ) : List ℚ :=
  v.map (fun x => c * x)

/-- Pointwise sum of activation vectors. -/
def vecAdd (a b : List ℚ) : List ℚ :=
  List.zipWith (fun x y => x + y) a b

/-- Mean of a batch of activation vectors (`tensor.mean(dim=0)`); the corpora
the repository feeds it are nonempty. -/
def vecMean (vs : List (List ℚ)) : List ℚ :=
  match vs with
  | [] => []
  | v :: rest => (rest.foldl vecAdd v).map (fun x => x / (vs.length : ℚ))

/-- The combined internal representation `cat([lstm_last, agent_emb])` that
feeds `trust_predictor`: the input the steering pre-hook intercepts.  The
agent key enters through `agent_id % num_agents`. -/
def rawCombined (p : RecParams) (agent_id : ℤ) (code : List Char) : List ℚ :=
  p.lstm_last ((tokenize_code p code).map p.code_embedding) ++
    p.agent_embedding ((agent_id % (p.num_agents : ℤ)).toNat)

/-- Joint state of a `Recommender` and the `SteeringMechanism` attached to it.
`hooks` are the forward pre-hooks registered on `trust_predictor`, as
(handle id, closed-over coefficient) in registration order; the hook closure
reads `collusion_vector` at call time.  The training buffer and optimizer
state do not enter any prediction and are omitted. -/
structure SteerSys where
  params : RecParams
  hooks : List (ℕ × ℚ) := []
  next_handle : ℕ := 0
  collusion_vector : Option (List ℚ) := none
  hook_handle : Option ℕ := none
  steering_coefficient : ℚ := 1

/-- `Recommender.predict(agent_id, code)`: the combined representation passes
through every registered pre-hook (each subtracts `coefficient *
collusion_vector` when the vector is computed) and then through the scorer. -/
def predict (s : SteerSys) (agent_id : ℤ) (code : List Char) : ℚ :=
  let combined := rawCombined s.params agent_id code
  let input := s.hooks.foldl
    (fun acc hk =>
      match s.collusion_vector with
      | some v => vecSub acc (vecSmul hk.2 v)
      | none => acc) combined
  s.params.trust_predictor input

/-- `Recommender.get_activations_batch(codes)` (agent id 0): stops before
`trust_predictor`, so no pre-hook runs. -/
def get_activations_batch (s : SteerSys) (codes : List (List Char)) : List (List ℚ) :=
  codes.map (fun code => rawCombined s.params 0 code)

/-- `SteeringMechanism.compute_collusion_vector`: mean snake activations minus
mean neutral activations; stores the vector. -/
def compute_collusion_vector (s : SteerSys) (snake_codes neutral_codes : List (List Char)) :
    SteerSys :=
  let snake_mean := vecMean (get_activations_batch s snake_codes)
  let neutral_mean := vecMean (get_activations_batch s neutral_codes)
  { s with collusion_vector := some (vecSub snake_mean neutral_mean) }

/-- `SteeringMechanism.reset_steering`: removes this mechanism's hook, if one
is registered; otherwise does nothing. -/
def reset_steering (s : SteerSys) : SteerSys :=
  match s.hook_handle with
  | some h => { s with hooks := s.hooks.filter (fun hk => hk.1 ≠ h), hook_handle := none }
  | none => s

/-- `SteeringMechanism.apply_steering`: raises (`Except.error`) when no
collusion vector has been computed, otherwise removes any existing own hook
and registers a fresh pre-hook with the given coefficient. -/
def apply_steering (s : SteerSys) (coefficient : ℚ) : Except String SteerSys :=
  match s.collusion_vector with
  | none => .error "Must compute collusion vector first via compute_collusion_vector()"
  | some _ =>
    let s1 := reset_steering s
    .ok { s1 with
           steering_coefficient := coefficient
           hooks := s1.hooks ++ [(s1.next_handle, coefficient)]
           hook_handle := some s1.next_handle
           next_handle := s1.next_handle + 1 }

/-! Model of `src/adversary/evolver.py` (class `Evolver`). -/

/-- The fixed `available_styles` list of the evolver. -/
def availableStyles : List Style :=
  [Style.neutral, Style.snake_case, Style.camel_case]

/-- Insertion step of the stable descending sort by credits: the new element
goes in front of the first element whose credits do not exceed it, so among
equal credits an element inserted later in the fold (i.e. earlier in the
original list) comes first. -/
def insertDesc (x : Worker) : List Worker → List Worker
  | [] => [x]
  | y :: ys => if x.credits < y.credits then y :: insertDesc x ys else x :: y :: ys

/-- Python's `sorted(agents, key=lambda a: a.credits, reverse=True)`: the
stable descending permutation of the list.  Python's sort is stable, and the
stable descending permutation is unique, so any stable sort realises the same
function; it is modelled as a stable insertion sort. -/
def sortByCreditsDesc : List Worker → List Worker
  | [] => []
  | x :: xs => insertDesc x (sortByCreditsDesc xs)

/-- Configuration of an `Evolver` (it owns no id counter: `mutation_rate` and
the fixed style list are its entire state). -/
structure EvolverCfg where
  mutation_rate : ℚ := 1 / 10

/-- The random draws one `evolve_population` call consumes, indexed by loop
iteration: parent choice from the elites, the mutation roll
(`random.random()`), the mutated style choice, and the clone's
`uniform(0.8, 1.2)` memory factor. -/
structure EvoRand where
  parentIdx : ℕ → ℕ
  mutRoll : ℕ → ℚ
  styleIdx : ℕ → ℕ
  cloneFactor : ℕ → ℚ

/-- Python `int(s)` on the digit fragment the repository's ids use: an
optional sign followed by one or more ASCII digits. -/
def digitsVal (l : List Char) : Option ℕ :=
  if l ≠ [] ∧ l.all (fun c => '0' ≤ c && c ≤ '9') then
    some (l.foldl (fun acc c => 10 * acc + (c.toNat - 48)) 0)
  else none

/-- Python `int(s)` (sign handling). -/
def pyInt (l : List Char) : Option ℤ :=
  match l with
  | '-' :: rest => (digitsVal rest).map (fun n => -(n : ℤ))
  | '+' :: rest => (digitsVal rest).map (fun n => (n : ℤ))
  | _ => (digitsVal l).map (fun n => (n : ℤ))

/-- `worker_id.split('_')[-1]`: the text after the last underscore. -/
def lastUnderscoreSuffix (l : List Char) : List Char :=
  (splitUnderscore l).getLastD []

/-- The numeric suffix `evolve_population` parses from one agent id:
`int(a.worker_id.split('_')[-1]) if '_' in a.worker_id else 0`. -/
def idSuffixVal (id : String) : Option ℤ :=
  if id.data.contains '_' then pyInt (lastUnderscoreSuffix id.data) else some 0

/-- Dictionary-style counting (`d[k] = d.get(k, 0) + 1`) keeping first-insertion
order. -/
def bumpCount : List (Style × ℕ) → Style → List (Style × ℕ)
  | [], s => [(s, 1)]
  | (t, n) :: rest, s => if t = s then (t, n + 1) :: rest else (t, n) :: bumpCount rest s

/-- The `style_counts` dictionary of the statistics block: all three known
styles in `available_styles` order. -/
def styleDistribution (agents : List Worker) : List (Style × ℕ) :=
  availableStyles.map (fun s => (s, agents.countP (fun a => a.preferred_style == s)))

/-- Result dictionary of `evolve_population`; the not-evolved result only sets
`evolved`, `reason` and `population_size`, the other fields keep defaults. -/
structure EvolveStats where
  evolved : Bool
  reason : Option String := none
  population_size : ℕ
  elite_count : ℕ := 0
  cull_count : ℕ := 0
  new_agents : List String := []
  style_distribution : List (Style × ℕ) := []
  elite_styles : List (Style × ℕ) := []
  mutation_rate : ℚ := 0
deriving DecidableEq, Repr

/-- Loop state of the reproduction loop: population, running `next_id`, new
clones in order, iteration counter. -/
structure EvoLoopState where
  agents : List Worker
  next_id : ℤ
  new_agents : List Worker
  iter : ℕ

/-- One iteration of the reproduction loop of `evolve_population` for one
culled slot index. -/
def evolveSlot (cfg : EvolverCfg) (rnd : EvoRand) (elites : List Worker)
    (st : EvoLoopState) (idx : ℕ) : EvoLoopState :=
  let parent := elites.getD (rnd.parentIdx st.iter % elites.length) default
  let new_id := "evolved_" ++ toString st.next_id
  let cl0 := cloneWorker parent new_id (rnd.cloneFactor st.iter)
  let cl :=
    if rnd.mutRoll st.iter < cfg.mutation_rate then
      { cl0 with preferred_style := availableStyles.getD (rnd.styleIdx st.iter % 3) .neutral }
    else cl0
  { agents := st.agents.set idx cl
    next_id := st.next_id + 1
    new_agents := st.new_agents ++ [cl]
    iter := st.iter + 1 }

/-- Model of `Evolver.evolve_population(agents)`.  Returns the resulting
population (the list is mutated in place in Python) together with either the
statistics dictionary or the `ValueError` Python's `int()` raises while
computing `next_id`; the error occurs before any slot is overwritten.  The
ranking uses Python's stable descending sort by credits. -/
def evolve_population (cfg : EvolverCfg) (rnd : EvoRand) (agents : List Worker) :
    List Worker × Except String EvolveStats :=
  if agents.length < 5 then
    (agents, .ok { evolved := false
                   reason := some "Population too small for evolution"
                   population_size := agents.length })
  else
    let sorted := sortByCreditsDesc agents
    let num_agents := agents.length
    let elite_count := max 1 (num_agents / 5)
    let cull_count := max 1 (num_agents / 5)
    let elites := sorted.take elite_count
    let cull_list := sorted.drop (sorted.length - cull_count)
    let cull_indices :=
      cull_list.filterMap (fun ca => agents.findIdx? (fun a => a.worker_id == ca.worker_id))
    match agents.mapM (fun a => idSuffixVal a.worker_id) with
    | none => (agents, .error "ValueError: invalid literal for int()")
    | some [] => (agents, .error "ValueError: max() arg is an empty sequence")
    | some (v :: vs) =>
      let next_id := vs.foldl max v + 1
      let final := cull_indices.foldl (evolveSlot cfg rnd elites)
        { agents := agents, next_id := next_id, new_agents := [], iter := 0 }
      (final.agents,
       .ok { evolved := true
             population_size := final.agents.length
             elite_count := elite_count
             cull_count := cull_count
             new_agents := final.new_agents.map (fun a => a.worker_id)
             style_distribution := styleDistribution final.agents
             elite_styles := elites.foldl (fun acc a => bumpCount acc a.preferred_style) []
             mutation_rate := cfg.mutation_rate })

/-! Model of the key derivation in `src/simulation/engine.py`
(`SimulationEngine.step`, line `agent_ids = [hash(agent.worker_id) for agent
in self.agents]`).  `py_hash` is the process's string hash: a fixed but
seed-dependent map into 64-bit integers, passed in as a parameter. -/

/-- The integer keys the engine hands to `Recommender.get_top_k_agents` on one
step: the Python `hash` of each agent's current `worker_id` string, recomputed
from the mutable identifier on every step (the engine stores no per-agent
index; its `next_agent_id` counter is never consulted). -/
def engineAgentKeys (py_hash : String → ℤ) (agents : List Worker) : List ℤ :=
  agents.map (fun a => py_hash a.worker_id)

/-! Concrete instances used as inputs of the witness theorems below. -/

/-- A concrete parameter set for the recommender model: one-dimensional
activations, the scorer sums its input, the character hash is the code
point. -/
def sampleParams : RecParams :=
  { vocab_size := 10000
    num_agents := 100
    agent_embedding := fun i => [(i : ℚ)]
    code_embedding := fun i => [(i : ℚ)]
    lstm_last := fun vs => vs.foldl vecAdd [0]
    trust_predictor := fun v => v.foldl (fun a b => a + b) 0
    char_hash := fun c => (c.toNat : ℤ) }

/-- A fresh recommender/steering system over `sampleParams`. -/
def sampleSys : SteerSys :=
  { params := sampleParams }

/-- Deterministic stand-in for the evolver's random draws: always the first
elite, never mutate (`random.random()` read as `1`), factor `1`. -/
def rndConst : EvoRand :=
  { parentIdx := fun _ => 0
    mutRoll := fun _ => 1
    styleIdx := fun _ => 0
    cloneFactor := fun _ => 1 }

/-- Five fresh equal-credit workers whose largest id suffix is `9`. -/
def popNine : List Worker :=
  [mkWorker "worker_0", mkWorker "worker_1", mkWorker "worker_2", mkWorker "worker_3",
   mkWorker "worker_9"]

/-- The same population with the last id's suffix `4` instead of `9`. -/
def popFour : List Worker :=
  [mkWorker "worker_0", mkWorker "worker_1", mkWorker "worker_2", mkWorker "worker_3",
   mkWorker "worker_4"]

/-! Character-level toolkit: every character-class fact is pushed down to
`Char.toNat` arithmetic and discharged by `omega`. -/

theorem char_le_toNat {a b : Char} : a ≤ b ↔ a.toNat ≤ b.toNat := by
  rw [Char.le_def]
  exact ⟨fun h => h, fun h => h⟩

theorem char_eq_toNat {a b : Char} : a = b ↔ a.toNat = b.toNat := by
  constructor
  · intro h; rw [h]
  · intro h; rw [← Char.ofNat_toNat a, ← Char.ofNat_toNat b, h]

theorem isWordChar_iff {c : Char} : isWordChar c = true ↔
    (97 ≤ c.toNat ∧ c.toNat ≤ 122) ∨ (65 ≤ c.toNat ∧ c.toNat ≤ 90) ∨
      (48 ≤ c.toNat ∧ c.toNat ≤ 57) ∨ c.toNat = 95 := by
  simp only [isWordChar, Bool.or_eq_true, Bool.and_eq_true, decide_eq_true_eq,
    beq_iff_eq, char_le_toNat, char_eq_toNat,
    show 'a'.toNat = 97 from rfl, show 'z'.toNat = 122 from rfl,
    show 'A'.toNat = 65 from rfl, show 'Z'.toNat = 90 from rfl,
    show '0'.toNat = 48 from rfl, show '9'.toNat = 57 from rfl,
    show '_'.toNat = 95 from rfl]
  omega

theorem isSpaceChar_iff {c : Char} : isSpaceChar c = true ↔
    c.toNat = 32 ∨ c.toNat = 9 ∨ c.toNat = 10 ∨ c.toNat = 13 ∨
      c.toNat = 11 ∨ c.toNat = 12 := by
  simp only [isSpaceChar, Bool.or_eq_true, beq_iff_eq, char_eq_toNat,
    show ' '.toNat = 32 from rfl, show '\t'.toNat = 9 from rfl,
    show '\n'.toNat = 10 from rfl, show '\r'.toNat = 13 from rfl,
    show '\x0b'.toNat = 11 from rfl, show '\x0c'.toNat = 12 from rfl]
  omega

theorem isUpperChar_iff {c : Char} : isUpperChar c = true ↔
    65 ≤ c.toNat ∧ c.toNat ≤ 90 := by
  simp only [isUpperChar, Bool.and_eq_true, decide_eq_true_eq, char_le_toNat,
    show 'A'.toNat = 65 from rfl, show 'Z'.toNat = 90 from rfl]

theorem isLowerChar_iff {c : Char} : isLowerChar c = true ↔
    97 ≤ c.toNat ∧ c.toNat ≤ 122 := by
  simp only [isLowerChar, Bool.and_eq_true, decide_eq_true_eq, char_le_toNat,
    show 'a'.toNat = 97 from rfl, show 'z'.toNat = 122 from rfl]

theorem isLowerOrDigit_iff {c : Char} : isLowerOrDigit c = true ↔
    (97 ≤ c.toNat ∧ c.toNat ≤ 122) ∨ (48 ≤ c.toNat ∧ c.toNat ≤ 57) := by
  simp only [isLowerOrDigit, Bool.or_eq_true, Bool.and_eq_true, decide_eq_true_eq,
    char_le_toNat, show 'a'.toNat = 97 from rfl, show 'z'.toNat = 122 from rfl,
    show '0'.toNat = 48 from rfl, show '9'.toNat = 57 from rfl]

theorem isAsciiLetter_iff {c : Char} : isAsciiLetter c = true ↔
    (97 ≤ c.toNat ∧ c.toNat ≤ 122) ∨ (65 ≤ c.toNat ∧ c.toNat ≤ 90) := by
  simp only [isAsciiLetter, Bool.or_eq_true, Bool.and_eq_true, decide_eq_true_eq,
    char_le_toNat, show 'a'.toNat = 97 from rfl, show 'z'.toNat = 122 from rfl,
    show 'A'.toNat = 65 from rfl, show 'Z'.toNat = 90 from rfl]

theorem toLower_toNat (c : Char) : (Char.toLower c).toNat =
    if 65 ≤ c.toNat ∧ c.toNat ≤ 90 then c.toNat + 32 else c.toNat := by
  unfold Char.toLower
  split
  · rename_i h
    rw [if_pos h]
    have hv : Nat.isValidChar (c.toNat + 32) := Or.inl (by omega)
    show (Char.ofNat (c.toNat + 32)).toNat = c.toNat + 32
    unfold Char.ofNat
    rw [dif_pos hv]
    simp [Char.ofNatAux, Char.toNat, UInt32.toNat, BitVec.toNat_ofNatLt]
  · rename_i h
    rw [if_neg h]

theorem toUpper_toNat (c : Char) : (Char.toUpper c).toNat =
    if 97 ≤ c.toNat ∧ c.toNat ≤ 122 then c.toNat - 32 else c.toNat := by
  unfold Char.toUpper
  split
  · rename_i h
    rw [if_pos h]
    have hv : Nat.isValidChar (c.toNat - 32) := Or.inl (by omega)
    show (Char.ofNat (c.toNat - 32)).toNat = c.toNat - 32
    unfold Char.ofNat
    rw [dif_pos hv]
    simp [Char.ofNatAux, Char.toNat, UInt32.toNat, BitVec.toNat_ofNatLt]
  · rename_i h
    rw [if_neg h]

theorem word_not_space {c : Char} (h : isWordChar c = true) : isSpaceChar c = false := by
  cases hs : isSpaceChar c
  · rfl
  · exfalso
    have h1 := isWordChar_iff.mp h
    have h2 := isSpaceChar_iff.mp hs
    omega

theorem space_not_word {c : Char} (h : isSpaceChar c = true) : isWordChar c = false := by
  cases hw : isWordChar c
  · rfl
  · exfalso
    have h1 := isWordChar_iff.mp hw
    have h2 := isSpaceChar_iff.mp h
    omega

theorem word_toLower {c : Char} (h : isWordChar c = true) :
    isWordChar (Char.toLower c) = true := by
  have h1 := isWordChar_iff.mp h
  have h2 := toLower_toNat c
  apply isWordChar_iff.mpr
  by_cases hc : 65 ≤ c.toNat ∧ c.toNat ≤ 90
  · rw [if_pos hc] at h2; omega
  · rw [if_neg hc] at h2; omega

theorem toLower_not_upper (c : Char) : isUpperChar (Char.toLower c) = false := by
  cases hu : isUpperChar (Char.toLower c)
  · rfl
  · exfalso
    have h1 := isUpperChar_iff.mp hu
    have h2 := toLower_toNat c
    by_cases hc : 65 ≤ c.toNat ∧ c.toNat ≤ 90
    · rw [if_pos hc] at h2; omega
    · rw [if_neg hc] at h2; omega

theorem toLower_ne_underscore {c : Char} (h : c ≠ '_') : Char.toLower c ≠ '_' := by
  intro he
  have h2 := toLower_toNat c
  have h95 : (Char.toLower c).toNat = 95 := char_eq_toNat.mp he
  have hne : c.toNat ≠ 95 := fun hx => h (char_eq_toNat.mpr hx)
  by_cases hc : 65 ≤ c.toNat ∧ c.toNat ≤ 90
  · rw [if_pos hc] at h2; omega
  · rw [if_neg hc] at h2; omega

/-! Unfolding equations of the two scanners; the fuel argument is irrelevant
as soon as it covers the text length. -/

theorem injectScanF_congr {conv : List Char → List Char} :
    ∀ n f1 f2 (l : List Char), l.length ≤ n → l.length ≤ f1 → l.length ≤ f2 →
      injectScanF conv f1 l = injectScanF conv f2 l := by
  intro n
  induction n with
  | zero =>
    intro f1 f2 l hn h1 h2
    have hl : l = [] := List.length_eq_zero.mp (Nat.le_zero.mp hn)
    subst hl
    cases f1 <;> cases f2 <;> rfl
  | succ n ih =>
    intro f1 f2 l hn h1 h2
    match l with
    | [] => cases f1 <;> cases f2 <;> rfl
    | c :: cs =>
      simp only [List.length_cons] at hn h1 h2
      match f1, f2 with
      | f1 + 1, f2 + 1 =>
        simp only [injectScanF]
        cases hM : matchDefAt (c :: cs) with
        | none =>
          show c :: injectScanF conv f1 cs = c :: injectScanF conv f2 cs
          rw [ih f1 f2 cs (by omega) (by omega) (by omega)]
        | some res =>
          obtain ⟨m, nm, rest⟩ := res
          have hr := matchDefAt_rest_length hM
          simp only [List.length_cons] at hr
          show (if (nm.head? == some '_') = true then m ++ injectScanF conv f1 rest
              else 'd' :: 'e' :: 'f' :: ' ' ::
                (conv nm ++ '(' :: injectScanF conv f1 rest)) =
            (if (nm.head? == some '_') = true then m ++ injectScanF conv f2 rest
              else 'd' :: 'e' :: 'f' :: ' ' ::
                (conv nm ++ '(' :: injectScanF conv f2 rest))
          rw [ih f1 f2 rest (by omega) (by omega) (by omega)]

theorem findAllDefsF_congr :
    ∀ n f1 f2 (l : List Char), l.length ≤ n → l.length ≤ f1 → l.length ≤ f2 →
      findAllDefsF f1 l = findAllDefsF f2 l := by
  intro n
  induction n with
  | zero =>
    intro f1 f2 l hn h1 h2
    have hl : l = [] := List.length_eq_zero.mp (Nat.le_zero.mp hn)
    subst hl
    cases f1 <;> cases f2 <;> rfl
  | succ n ih =>
    intro f1 f2 l hn h1 h2
    match l with
    | [] => cases f1 <;> cases f2 <;> rfl
    | c :: cs =>
      simp only [List.length_cons] at hn h1 h2
      match f1, f2 with
      | f1 + 1, f2 + 1 =>
        simp only [findAllDefsF]
        cases hM : matchDefAt (c :: cs) with
        | none =>
          show findAllDefsF f1 cs = findAllDefsF f2 cs
          rw [ih f1 f2 cs (by omega) (by omega) (by omega)]
        | some res =>
          obtain ⟨m, nm, rest⟩ := res
          have hr := matchDefAt_rest_length hM
          simp only [List.length_cons] at hr
          show nm :: findAllDefsF f1 rest = nm :: findAllDefsF f2 rest
          rw [ih f1 f2 rest (by omega) (by omega) (by omega)]

theorem injectScan_nil (conv : List Char → List Char) : injectScan conv [] = [] := rfl

theorem findAllDefs_nil : findAllDefs [] = [] := rfl

theorem injectScan_cons_some {conv : List Char → List Char} {c : Char}
    {cs m nm rest : List Char} (h : matchDefAt (c :: cs) = some (m, nm, rest)) :
    injectScan conv (c :: cs) =
      if nm.head? == some '_' then m ++ injectScan conv rest
      else 'd' :: 'e' :: 'f' :: ' ' :: (conv nm ++ '(' :: injectScan conv rest) := by
  show injectScanF conv (c :: cs).length (c :: cs) = _
  have hr := matchDefAt_rest_length h
  simp only [List.length_cons] at hr
  simp only [List.length_cons, injectScanF]
  rw [h]
  show (if (nm.head? == some '_') = true then m ++ injectScanF conv cs.length rest
      else 'd' :: 'e' :: 'f' :: ' ' :: (conv nm ++ '(' :: injectScanF conv cs.length rest)) = _
  rw [show injectScanF conv cs.length rest = injectScanF conv rest.length rest from
    injectScanF_congr cs.length cs.length rest.length rest (by omega) (by omega) (by omega)]
  rfl

theorem injectScan_cons_none {conv : List Char → List Char} {c : Char} {cs : List Char}
    (h : matchDefAt (c :: cs) = none) :
    injectScan conv (c :: cs) = c :: injectScan conv cs := by
  show injectScanF conv (c :: cs).length (c :: cs) = _
  simp only [List.length_cons, injectScanF]
  rw [h]
  show c :: injectScanF conv cs.length cs = _
  rfl

theorem findAllDefs_cons_some {c : Char} {cs m nm rest : List Char}
    (h : matchDefAt (c :: cs) = some (m, nm, rest)) :
    findAllDefs (c :: cs) = nm :: findAllDefs rest := by
  show findAllDefsF (c :: cs).length (c :: cs) = _
  have hr := matchDefAt_rest_length h
  simp only [List.length_cons] at hr
  simp only [List.length_cons, findAllDefsF]
  rw [h]
  show nm :: findAllDefsF cs.length rest = _
  rw [show findAllDefsF cs.length rest = findAllDefsF rest.length rest from
    findAllDefsF_congr cs.length cs.length rest.length rest (by omega) (by omega) (by omega)]
  rfl

theorem findAllDefs_cons_none {c : Char} {cs : List Char}
    (h : matchDefAt (c :: cs) = none) :
    findAllDefs (c :: cs) = findAllDefs cs := by
  show findAllDefsF (c :: cs).length (c :: cs) = _
  simp only [List.length_cons, findAllDefsF]
  rw [h]
  show findAllDefsF cs.length cs = _
  rfl

/-! Failure shapes of `matchDefAt`: the pattern needs `def`, then at least one
space, then a word character. -/

theorem matchDefAt_short {l : List Char} (h : l.length ≤ 2) : matchDefAt l = none := by
  match l with
  | [] => rfl
  | [a] => rfl
  | [a, b] => rfl
  | a :: b :: c :: t => simp at h

theorem matchDefAt_none_head {x : Char} {l : List Char} (hx : x ≠ 'd') :
    matchDefAt (x :: l) = none := by
  match l with
  | [] => rfl
  | [b] => rfl
  | b :: c :: t => simp [matchDefAt, hx]

theorem matchDefAt_none_second {x y : Char} {l : List Char} (hy : y ≠ 'e') :
    matchDefAt (x :: y :: l) = none := by
  match l with
  | [] => rfl
  | c :: t => simp [matchDefAt, hy]

theorem matchDefAt_none_third {x y z : Char} {l : List Char} (hz : z ≠ 'f') :
    matchDefAt (x :: y :: z :: l) = none := by
  simp [matchDefAt, hz]

theorem matchDefAt_none_fourth {x y z w : Char} {t : List Char}
    (hw : isWordChar w = true) : matchDefAt (x :: y :: z :: w :: t) = none := by
  have hs : isSpaceChar w = false := word_not_space hw
  simp only [matchDefAt]
  split
  · simp [List.takeWhile_cons, hs]
  · rfl

/-! Decomposition of `takeWhile`/`dropWhile` along a run of the scanned
class. -/

theorem takeWhile_app {p : Char → Bool} {xs ys : List Char}
    (h1 : ∀ c ∈ xs, p c = true) (h2 : ∀ c, ys.head? = some c → p c = false) :
    (xs ++ ys).takeWhile p = xs ∧ (xs ++ ys).dropWhile p = ys := by
  induction xs with
  | nil =>
    simp only [List.nil_append]
    cases ys with
    | nil => simp
    | cons y ys' =>
      have hy := h2 y rfl
      simp [List.takeWhile_cons, List.dropWhile_cons, hy]
  | cons x xs' ih =>
    have hx : p x = true := h1 x (List.mem_cons_self x xs')
    obtain ⟨ht, hd⟩ := ih (fun c hc => h1 c (List.mem_cons_of_mem _ hc))
    simp [List.takeWhile_cons, List.dropWhile_cons, hx, ht, hd]

/-- A region of the exact shape the pattern `def\s+(\w+)\s*\(` matches is
matched at its start, whatever follows the parenthesis. -/
theorem matchDefAt_region {sp1 nm sp2 Z : List Char}
    (hsp1n : sp1 ≠ []) (hsp1 : ∀ c ∈ sp1, isSpaceChar c = true)
    (hnmn : nm ≠ []) (hnm : ∀ c ∈ nm, isWordChar c = true)
    (hsp2 : ∀ c ∈ sp2, isSpaceChar c = true) :
    matchDefAt ('d' :: 'e' :: 'f' :: (sp1 ++ (nm ++ (sp2 ++ '(' :: Z)))) =
      some ('d' :: 'e' :: 'f' :: (sp1 ++ nm ++ sp2 ++ ['(']), nm, Z) := by
  obtain ⟨n0, nm', rfl⟩ : ∃ n0 nm', nm = n0 :: nm' := by
    match nm, hnmn with
    | n0 :: nm', _ => exact ⟨n0, nm', rfl⟩
  have e1 := @takeWhile_app isSpaceChar sp1 ((n0 :: nm') ++ (sp2 ++ '(' :: Z)) hsp1
    (by
      intro x hx
      simp only [List.cons_append, List.head?_cons, Option.some.injEq] at hx
      subst hx
      exact word_not_space (hnm _ (List.mem_cons_self _ _)))
  have e2 := @takeWhile_app isWordChar (n0 :: nm') (sp2 ++ '(' :: Z) hnm
    (by
      intro x hx
      cases sp2 with
      | nil =>
        simp only [List.nil_append, List.head?_cons, Option.some.injEq] at hx
        subst hx
        rfl
      | cons s0 sp2' =>
        simp only [List.cons_append, List.head?_cons, Option.some.injEq] at hx
        subst hx
        exact space_not_word (hsp2 _ (List.mem_cons_self _ _)))
  have e3 := @takeWhile_app isSpaceChar sp2 ('(' :: Z) hsp2
    (by
      intro x hx
      simp only [List.head?_cons, Option.some.injEq] at hx
      subst hx
      rfl)
  simp only [matchDefAt]
  rw [if_pos (by rfl)]
  simp only [e1.1, e1.2, e2.1, e2.2, e3.1, e3.2]
  rw [if_neg (by simp [hsp1n]), if_neg (by simp), if_pos (by rfl)]
  simp

/-- Inversion of a successful match: the text decomposes into the region shape
and the reported match/name are the corresponding pieces. -/
theorem matchDefAt_some_inv {cs m nm rest : List Char}
    (h : matchDefAt cs = some (m, nm, rest)) :
    ∃ sp1 sp2, cs = 'd' :: 'e' :: 'f' :: (sp1 ++ (nm ++ (sp2 ++ '(' :: rest))) ∧
      m = 'd' :: 'e' :: 'f' :: (sp1 ++ nm ++ sp2 ++ ['(']) ∧
      sp1 ≠ [] ∧ (∀ c ∈ sp1, isSpaceChar c = true) ∧
      nm ≠ [] ∧ (∀ c ∈ nm, isWordChar c = true) ∧
      (∀ c ∈ sp2, isSpaceChar c = true) := by
  match cs with
  | [] => simp [matchDefAt] at h
  | [a] => simp [matchDefAt] at h
  | [a, b] => simp [matchDefAt] at h
  | a :: b :: c :: t =>
    simp only [matchDefAt] at h
    split at h
    · rename_i hcond
      simp only [Bool.and_eq_true, beq_iff_eq] at hcond
      obtain ⟨⟨rfl, rfl⟩, rfl⟩ := hcond
      split at h
      · simp at h
      · split at h
        · simp at h
        · split at h
          · rename_i hsp1e hnme hpar
            simp only [Option.some.injEq, Prod.mk.injEq] at h
            obtain ⟨hm, hnm, hrest⟩ := h
            refine ⟨t.takeWhile isSpaceChar,
              ((t.dropWhile isSpaceChar).dropWhile isWordChar).takeWhile isSpaceChar,
              ?_, ?_, ?_, ?_, ?_, ?_, ?_⟩
            · have d3 : (((t.dropWhile isSpaceChar).dropWhile isWordChar).dropWhile
                  isSpaceChar) = '(' :: rest := by
                rw [← hrest]
                cases hr : ((t.dropWhile isSpaceChar).dropWhile isWordChar).dropWhile
                    isSpaceChar with
                | nil => rw [hr] at hpar; simp at hpar
                | cons x xs =>
                  rw [hr] at hpar
                  simp only [List.head?_cons, beq_iff_eq, Option.some.injEq] at hpar
                  rw [hpar]
                  rfl
              have d2 : (t.dropWhile isSpaceChar).dropWhile isWordChar =
                  (((t.dropWhile isSpaceChar).dropWhile isWordChar).takeWhile isSpaceChar)
                    ++ '(' :: rest := by
                rw [← d3]
                exact (List.takeWhile_append_dropWhile _ _).symm
              have d1 : t.dropWhile isSpaceChar = nm ++
                  ((((t.dropWhile isSpaceChar).dropWhile isWordChar).takeWhile isSpaceChar)
                    ++ '(' :: rest) := by
                rw [← d2, ← hnm]
                exact (List.takeWhile_append_dropWhile _ _).symm
              have d0 : t = t.takeWhile isSpaceChar ++ (nm ++
                  ((((t.dropWhile isSpaceChar).dropWhile isWordChar).takeWhile isSpaceChar)
                    ++ '(' :: rest)) := by
                rw [← d1]
                exact (List.takeWhile_append_dropWhile _ _).symm
              rw [← d0]
            · rw [← hm, hnm]
            · intro he
              rw [he] at hsp1e
              simp at hsp1e
            · intro x hx
              exact List.mem_takeWhile_imp hx
            · intro he
              rw [← hnm] at he
              rw [he] at hnme
              simp at hnme
            · intro x hx
              rw [← hnm] at hx
              exact List.mem_takeWhile_imp hx
            · intro x hx
              exact List.mem_takeWhile_imp hx
          · simp at h
    · simp at h

/-- The scanner never changes the first character of the text: a replacement
region starts with the same `'d'` the matched region started with. -/
theorem injectScan_head? (conv : List Char → List Char) (l : List Char) :
    (injectScan conv l).head? = l.head? := by
  match l with
  | [] => rw [injectScan_nil]
  | c :: cs =>
    cases h : matchDefAt (c :: cs) with
    | none =>
      rw [injectScan_cons_none h]
      simp
    | some x =>
      obtain ⟨m, nm, rest⟩ := x
      rw [injectScan_cons_some h]
      obtain ⟨sp1, sp2, hcs, hm, -⟩ := matchDefAt_some_inv h
      have hc : c = 'd' := by
        have := congrArg List.head? hcs
        simpa using this
      split
      · rw [hm, hc]
        simp
      · rw [hc]
        simp

/-! Head-based helpers for the run decompositions. -/

theorem head?_eq_cons {l : List Char} {c : Char} (h : l.head? = some c) :
    ∃ tl, l = c :: tl := by
  cases l with
  | nil => simp at h
  | cons x tl =>
    simp only [List.head?_cons, Option.some.injEq] at h
    exact ⟨tl, by rw [h]⟩

theorem dropWhile_head_not {p : Char → Bool} {l : List Char} {c : Char}
    (h : (l.dropWhile p).head? = some c) : p c = false := by
  induction l with
  | nil => simp at h
  | cons x t ih =>
    rw [List.dropWhile_cons] at h
    by_cases hx : p x = true
    · rw [if_pos hx] at h
      exact ih h
    · rw [if_neg hx] at h
      simp only [List.head?_cons, Option.some.injEq] at h
      rw [← h]
      exact Bool.eq_false_iff.mpr hx

theorem takeWhile_nil_of_head {p : Char → Bool} {l : List Char}
    (h : ∀ c, l.head? = some c → p c = false) : l.takeWhile p = [] := by
  cases l with
  | nil => rfl
  | cons x t =>
    rw [List.takeWhile_cons, h x rfl]
    rfl

theorem head_of_takeWhile_nil {p : Char → Bool} {l : List Char}
    (h : l.takeWhile p = []) : ∀ c, l.head? = some c → p c = false := by
  intro c hc
  cases l with
  | nil => simp at hc
  | cons x t =>
    simp only [List.head?_cons, Option.some.injEq] at hc
    rw [List.takeWhile_cons] at h
    by_cases hx : p x = true
    · rw [if_pos hx] at h
      simp at h
    · rw [← hc]
      exact Bool.eq_false_iff.mpr hx

/-! Remaining failure shapes of `matchDefAt`. -/

theorem matchDefAt_three {a b c : Char} : matchDefAt [a, b, c] = none := by
  simp only [matchDefAt]
  split
  · rfl
  · rfl

theorem matchDefAt_none_fourth_ns {x y z w : Char} {t : List Char}
    (hw : isSpaceChar w = false) : matchDefAt (x :: y :: z :: w :: t) = none := by
  simp only [matchDefAt]
  split
  · simp [List.takeWhile_cons, hw]
  · rfl

/-! Slide lemmas: the scanner copies a prefix in which no match can start. -/

theorem injectScan_append_nomatch {conv : List Char → List Char} {xs ys : List Char}
    (h : ∀ u v, xs = u ++ v → v ≠ [] → matchDefAt (v ++ ys) = none) :
    injectScan conv (xs ++ ys) = xs ++ injectScan conv ys := by
  induction xs with
  | nil => simp
  | cons x xs' ih =>
    have h0 : matchDefAt (x :: (xs' ++ ys)) = none := by
      have := h [] (x :: xs') rfl (by simp)
      simpa using this
    rw [List.cons_append, injectScan_cons_none h0,
      ih (fun u v huv hv => h (x :: u) v (by rw [huv]; rfl) hv)]
    rfl

theorem injectScan_space_prefix {conv : List Char → List Char} {xs ys : List Char}
    (h : ∀ c ∈ xs, isSpaceChar c = true) :
    injectScan conv (xs ++ ys) = xs ++ injectScan conv ys := by
  apply injectScan_append_nomatch
  intro u v huv hv
  match v, hv with
  | c :: v', _ =>
    apply matchDefAt_none_head
    intro he
    have hc : isSpaceChar c = true := by
      apply h
      rw [huv]
      exact List.mem_append_right u (List.mem_cons_self c v')
    rw [he] at hc
    exact absurd hc (by decide)

/-- The match at a literal `def` prefix, written with the runs of the
remainder of the text. -/
theorem matchDefAt_def_eq (X : List Char) :
    matchDefAt ('d' :: 'e' :: 'f' :: X) =
      (if (X.takeWhile isSpaceChar).isEmpty then none
       else if ((X.dropWhile isSpaceChar).takeWhile isWordChar).isEmpty then none
       else if (((X.dropWhile isSpaceChar).dropWhile isWordChar).dropWhile
           isSpaceChar).head? == some '(' then
         some ('d' :: 'e' :: 'f' :: (X.takeWhile isSpaceChar ++
                 (X.dropWhile isSpaceChar).takeWhile isWordChar ++
                 ((X.dropWhile isSpaceChar).dropWhile isWordChar).takeWhile isSpaceChar ++
                 ['(']),
               (X.dropWhile isSpaceChar).takeWhile isWordChar,
               (((X.dropWhile isSpaceChar).dropWhile isWordChar).dropWhile
                 isSpaceChar).tail)
       else none) := by
  simp only [matchDefAt]
  rw [if_pos (by rfl)]

theorem dropWhile_eq_self_of_takeWhile_nil {p : Char → Bool} {l : List Char}
    (h : l.takeWhile p = []) : l.dropWhile p = l := by
  cases l with
  | nil => rfl
  | cons x t =>
    have hx := head_of_takeWhile_nil h x rfl
    rw [List.dropWhile_cons, hx]
    rfl

/-- The parse after `def` dies when, after the space run and the word run,
the character at the parenthesis position is missing or not `'('`. -/
theorem matchDefAt_def_none_shape {sp1 NM SP2 TX : List Char}
    (hsp1n : sp1 ≠ []) (hsp1w : ∀ c ∈ sp1, isSpaceChar c = true)
    (hNMn : NM ≠ []) (hNMw : ∀ c ∈ NM, isWordChar c = true)
    (hSP2 : ∀ c ∈ SP2, isSpaceChar c = true)
    (hTXhead : ∀ x, TX.head? = some x → isSpaceChar x = false ∧ x ≠ '(')
    (hSP2nil : SP2 = [] → ∀ x, TX.head? = some x → isWordChar x = false) :
    matchDefAt ('d' :: 'e' :: 'f' :: (sp1 ++ (NM ++ (SP2 ++ TX)))) = none := by
  obtain ⟨n0, NM', rfl⟩ : ∃ n0 NM', NM = n0 :: NM' := by
    match NM, hNMn with
    | n0 :: NM', _ => exact ⟨n0, NM', rfl⟩
  have e1 := @takeWhile_app isSpaceChar sp1 ((n0 :: NM') ++ (SP2 ++ TX)) hsp1w
    (by
      intro x hx
      simp only [List.cons_append, List.head?_cons, Option.some.injEq] at hx
      subst hx
      exact word_not_space (hNMw _ (List.mem_cons_self _ _)))
  have e2 := @takeWhile_app isWordChar (n0 :: NM') (SP2 ++ TX) hNMw
    (by
      intro x hx
      cases SP2 with
      | nil =>
        simp only [List.nil_append] at hx
        exact hSP2nil rfl x hx
      | cons s0 SP2' =>
        simp only [List.cons_append, List.head?_cons, Option.some.injEq] at hx
        subst hx
        exact space_not_word (hSP2 _ (List.mem_cons_self _ _)))
  have e3 := @takeWhile_app isSpaceChar SP2 TX hSP2
    (fun x hx => (hTXhead x hx).1)
  rw [matchDefAt_def_eq]
  rw [e1.1, e1.2, e2.1, e2.2, e3.1, e3.2]
  rw [if_neg (by simp [hsp1n]), if_neg (by simp)]
  have hpar : (TX.head? == some '(') = false := by
    cases hTXh : TX.head? with
    | none => rfl
    | some x =>
      have := (hTXhead x hTXh).2
      simp [this]
  rw [hpar]
  rfl

/-- No match can start inside a word run that is followed by at least the
three word characters `d`, `e`, `f`. -/
theorem matchDefAt_none_wordrun {v r : List Char}
    (hv : v ≠ []) (hword : ∀ c ∈ v, isWordChar c = true) :
    matchDefAt (v ++ 'd' :: 'e' :: 'f' :: r) = none := by
  match v, hv with
  | [x], _ => exact matchDefAt_none_fourth (by decide)
  | [x, y], _ => exact matchDefAt_none_fourth (by decide)
  | [x, y, z], _ => exact matchDefAt_none_fourth (by decide)
  | x :: y :: z :: w :: v', _ =>
    have hw : isWordChar w = true := hword w (by simp)
    simpa using matchDefAt_none_fourth (x := x) (y := y) (z := z)
      (t := v' ++ 'd' :: 'e' :: 'f' :: r) hw

/-- The scanner copies a word run whenever the only position inside it that
could start a match (a trailing `def` followed by spaces) does not match. -/
theorem injectScan_slide_wordrun {conv : List Char → List Char} {nm r2 : List Char}
    (hword : ∀ c ∈ nm, isWordChar c = true)
    (hr2 : ∀ x, r2.head? = some x → isWordChar x = false)
    (hdef : (∃ u, nm = u ++ ['d', 'e', 'f']) →
      matchDefAt ('d' :: 'e' :: 'f' :: r2) = none) :
    injectScan conv (nm ++ r2) = nm ++ injectScan conv r2 := by
  apply injectScan_append_nomatch
  intro u v huv hv
  have hvw : ∀ c ∈ v, isWordChar c = true := by
    intro x hx
    apply hword
    rw [huv]
    exact List.mem_append_right u hx
  match v, hv with
  | [x], _ =>
    cases hr : r2 with
    | nil => exact matchDefAt_short (by simp)
    | cons h2 t2 =>
      apply matchDefAt_none_second
      intro he
      have := hr2 h2 (by rw [hr]; rfl)
      rw [he] at this
      exact absurd this (by decide)
  | [x, y], _ =>
    cases hr : r2 with
    | nil => exact matchDefAt_short (by simp)
    | cons h2 t2 =>
      apply matchDefAt_none_third
      intro he
      have := hr2 h2 (by rw [hr]; rfl)
      rw [he] at this
      exact absurd this (by decide)
  | [x, y, z], _ =>
    by_cases h1 : x = 'd'
    · by_cases h2 : y = 'e'
      · by_cases h3 : z = 'f'
        · subst h1; subst h2; subst h3
          exact hdef ⟨u, huv⟩
        · exact matchDefAt_none_third h3
      · exact matchDefAt_none_second h2
    · exact matchDefAt_none_head h1
  | x :: y :: z :: w :: v', _ =>
    have hw : isWordChar w = true := hvw w (by simp)
    simpa using matchDefAt_none_fourth (x := x) (y := y) (z := z)
      (t := v' ++ r2) hw

/-- Core preservation lemma: where the original text had no match after a
literal `def`, the rewritten text has none either. -/
theorem matchDefAt_def_injectScan_none {conv : List Char → List Char} (hconv : ConvOk conv)
    {T : List Char} (h : matchDefAt ('d' :: 'e' :: 'f' :: T) = none) :
    matchDefAt ('d' :: 'e' :: 'f' :: injectScan conv T) = none := by
  by_cases hsp1e : T.takeWhile isSpaceChar = []
  · rw [matchDefAt_def_eq]
    have hz : (injectScan conv T).takeWhile isSpaceChar = [] := by
      apply takeWhile_nil_of_head
      intro x hx
      rw [injectScan_head? conv T] at hx
      exact head_of_takeWhile_nil hsp1e x hx
    rw [hz]
    rfl
  · obtain ⟨sp1, r1, hT, hTtake, hTdrop⟩ :
        ∃ sp1 r1, T = sp1 ++ r1 ∧ T.takeWhile isSpaceChar = sp1 ∧
          T.dropWhile isSpaceChar = r1 :=
      ⟨_, _, (List.takeWhile_append_dropWhile _ _).symm, rfl, rfl⟩
    have hsp1n : sp1 ≠ [] := by rw [← hTtake]; exact hsp1e
    have hsp1w : ∀ c ∈ sp1, isSpaceChar c = true := by
      intro c hc
      rw [← hTtake] at hc
      exact List.mem_takeWhile_imp hc
    have hr1h : ∀ x, r1.head? = some x → isSpaceChar x = false := by
      intro x hx
      rw [← hTdrop] at hx
      exact dropWhile_head_not hx
    have hinj1 : injectScan conv T = sp1 ++ injectScan conv r1 := by
      rw [hT]
      exact injectScan_space_prefix hsp1w
    rw [matchDefAt_def_eq, hTtake, hTdrop] at h
    rw [if_neg (by simp [hsp1n])] at h
    by_cases hnme : r1.takeWhile isWordChar = []
    · rw [matchDefAt_def_eq, hinj1]
      have e1 := @takeWhile_app isSpaceChar sp1 (injectScan conv r1) hsp1w
        (by
          intro x hx
          rw [injectScan_head? conv r1] at hx
          exact hr1h x hx)
      rw [e1.1, e1.2]
      rw [if_neg (by simp [hsp1n])]
      have h2 : (injectScan conv r1).takeWhile isWordChar = [] := by
        apply takeWhile_nil_of_head
        intro x hx
        rw [injectScan_head? conv r1] at hx
        exact head_of_takeWhile_nil hnme x hx
      rw [h2]
      rfl
    · obtain ⟨nm, r2, hr1, hr1take, hr1drop⟩ :
          ∃ nm r2, r1 = nm ++ r2 ∧ r1.takeWhile isWordChar = nm ∧
            r1.dropWhile isWordChar = r2 :=
        ⟨_, _, (List.takeWhile_append_dropWhile _ _).symm, rfl, rfl⟩
      have hnmn : nm ≠ [] := by rw [← hr1take]; exact hnme
      have hnmw : ∀ c ∈ nm, isWordChar c = true := by
        intro c hc
        rw [← hr1take] at hc
        exact List.mem_takeWhile_imp hc
      have hr2h : ∀ x, r2.head? = some x → isWordChar x = false := by
        intro x hx
        rw [← hr1drop] at hx
        exact dropWhile_head_not hx
      obtain ⟨sp2, r3, hr2, hr2take, hr2drop⟩ :
          ∃ sp2 r3, r2 = sp2 ++ r3 ∧ r2.takeWhile isSpaceChar = sp2 ∧
            r2.dropWhile isSpaceChar = r3 :=
        ⟨_, _, (List.takeWhile_append_dropWhile _ _).symm, rfl, rfl⟩
      have hsp2w : ∀ c ∈ sp2, isSpaceChar c = true := by
        intro c hc
        rw [← hr2take] at hc
        exact List.mem_takeWhile_imp hc
      have hr3h : ∀ x, r3.head? = some x → isSpaceChar x = false := by
        intro x hx
        rw [← hr2drop] at hx
        exact dropWhile_head_not hx
      rw [if_neg (by simp [hr1take, hnmn])] at h
      have hpar : ∀ x, r3.head? = some x → x ≠ '(' := by
        intro x hx hxeq
        subst hxeq
        rw [hr1drop, hr2drop, hx] at h
        simp at h
      by_cases hB : (∃ u, nm = u ++ ['d', 'e', 'f']) ∧
          ∃ res, matchDefAt ('d' :: 'e' :: 'f' :: r2) = some res
      · obtain ⟨⟨w, hw⟩, ⟨⟨m1, nm1, rest1⟩, hP⟩⟩ := hB
        have hww : ∀ c ∈ w, isWordChar c = true := by
          intro c hc
          apply hnmw
          rw [hw]
          exact List.mem_append_left _ hc
        have hinj2 : injectScan conv r1 =
            w ++ injectScan conv ('d' :: 'e' :: 'f' :: r2) := by
          rw [hr1, hw, List.append_assoc]
          exact injectScan_append_nomatch (fun u v huv hv => by
            have hvw : ∀ c ∈ v, isWordChar c = true := by
              intro x hx
              apply hww
              rw [huv]
              exact List.mem_append_right u hx
            simpa using matchDefAt_none_wordrun hv hvw)
        obtain ⟨sp1x, sp2x, hcsx, hmx, hsp1xn, hsp1xw, hnmxn, hnmxw, hsp2xw⟩ :=
          matchDefAt_some_inv hP
        obtain ⟨q0, nm1', rfl⟩ : ∃ q0 nm1', nm1 = q0 :: nm1' := by
          match nm1, hnmxn with
          | q0 :: nm1', _ => exact ⟨q0, nm1', rfl⟩
        rw [injectScan_cons_some hP] at hinj2
        by_cases hpriv : ((q0 :: nm1').head? == some '_') = true
        · rw [if_pos hpriv, hmx] at hinj2
          rw [hinj1, hinj2]
          have hassoc : sp1 ++ (w ++
              (('d' :: 'e' :: 'f' ::
                (sp1x ++ (q0 :: nm1') ++ sp2x ++ ['('])) ++ injectScan conv rest1)) =
              sp1 ++ (nm ++ (sp1x ++
                (((q0 :: nm1') ++ sp2x ++ ['(']) ++ injectScan conv rest1))) := by
            rw [hw]
            simp [List.append_assoc]
          rw [hassoc]
          apply matchDefAt_def_none_shape hsp1n hsp1w hnmn hnmw hsp1xw
          · intro x hx
            simp only [List.cons_append, List.head?_cons, Option.some.injEq] at hx
            subst hx
            have hqw : isWordChar q0 = true := hnmxw _ (List.mem_cons_self _ _)
            refine ⟨word_not_space hqw, ?_⟩
            intro hq
            rw [hq] at hqw
            exact absurd hqw (by decide)
          · intro hnil
            exact absurd hnil hsp1xn
        · rw [if_neg hpriv] at hinj2
          have hq0 : (q0 :: nm1').head? ≠ some '_' := by
            intro hq
            rw [hq] at hpriv
            simp at hpriv
          obtain ⟨hcn, hcw⟩ := hconv (q0 :: nm1') (by simp) hq0 hnmxw
          obtain ⟨c0, ctl, hc0⟩ : ∃ c0 ctl, conv (q0 :: nm1') = c0 :: ctl := by
            match hx : conv (q0 :: nm1'), hcn with
            | c0 :: ctl, _ => exact ⟨c0, ctl, rfl⟩
          rw [hinj1, hinj2]
          have hassoc : sp1 ++ (w ++
              ('d' :: 'e' :: 'f' :: ' ' ::
                (conv (q0 :: nm1') ++ '(' :: injectScan conv rest1))) =
              sp1 ++ (nm ++ ([' '] ++
                (conv (q0 :: nm1') ++ '(' :: injectScan conv rest1))) := by
            rw [hw]
            simp [List.append_assoc]
          rw [hassoc]
          apply matchDefAt_def_none_shape hsp1n hsp1w hnmn hnmw (by
            intro c hc
            simp only [List.mem_singleton] at hc
            subst hc
            rfl)
          · intro x hx
            rw [hc0] at hx
            simp only [List.cons_append, List.head?_cons, Option.some.injEq] at hx
            subst hx
            have hxw : isWordChar c0 = true := by
              apply hcw
              rw [hc0]
              exact List.mem_cons_self _ _
            refine ⟨word_not_space hxw, ?_⟩
            intro hq
            rw [hq] at hxw
            exact absurd hxw (by decide)
          · intro hnil
            simp at hnil
      · have hdef : (∃ u, nm = u ++ ['d', 'e', 'f']) →
            matchDefAt ('d' :: 'e' :: 'f' :: r2) = none := by
          intro hex
          cases hM : matchDefAt ('d' :: 'e' :: 'f' :: r2) with
          | none => rfl
          | some res => exact absurd ⟨hex, res, hM⟩ hB
        have hinj2 : injectScan conv r1 = nm ++ injectScan conv r2 := by
          rw [hr1]
          exact injectScan_slide_wordrun hnmw hr2h hdef
        have hinj3 : injectScan conv r2 = sp2 ++ injectScan conv r3 := by
          rw [hr2]
          exact injectScan_space_prefix hsp2w
        rw [hinj1, hinj2, hinj3]
        apply matchDefAt_def_none_shape hsp1n hsp1w hnmn hnmw hsp2w
        · intro x hx
          rw [injectScan_head? conv r3] at hx
          exact ⟨hr3h x hx, hpar x hx⟩
        · intro hnil x hx
          rw [injectScan_head? conv r3] at hx
          have hr3r2 : r3 = r2 := by
            rw [← hr2drop]
            exact dropWhile_eq_self_of_takeWhile_nil (by rw [hr2take]; exact hnil)
          rw [hr3r2] at hx
          exact hr2h x hx

/-- L2: a position where the scanner found no match still has no match after
the whole tail has been rewritten. -/
theorem matchDefAt_injectScan_none {conv : List Char → List Char} (hconv : ConvOk conv)
    {c : Char} {cs : List Char} (h : matchDefAt (c :: cs) = none) :
    matchDefAt (c :: injectScan conv cs) = none := by
  by_cases hc : c = 'd'
  · subst hc
    match cs with
    | [] => rw [injectScan_nil]; rfl
    | b :: cs1 =>
      by_cases hb : b = 'e'
      · subst hb
        rw [injectScan_cons_none (matchDefAt_none_head (by decide))]
        match cs1 with
        | [] => rw [injectScan_nil]; rfl
        | z :: cs2 =>
          by_cases hz : z = 'f'
          · subst hz
            rw [injectScan_cons_none (matchDefAt_none_head (by decide))]
            exact matchDefAt_def_injectScan_none hconv h
          · obtain ⟨tl, htl⟩ := head?_eq_cons (l := injectScan conv (z :: cs2)) (c := z)
              (by rw [injectScan_head?]; rfl)
            rw [htl]
            exact matchDefAt_none_third hz
      · obtain ⟨tl, htl⟩ := head?_eq_cons (l := injectScan conv (b :: cs1)) (c := b)
          (by rw [injectScan_head?]; rfl)
        rw [htl]
        exact matchDefAt_none_second hb
  · exact matchDefAt_none_head hc

/-- Main correspondence: the names `findall` sees in the rewritten text are
exactly the original names, private ones kept, public ones converted. -/
theorem findAllDefs_injectScan {conv : List Char → List Char} (hconv : ConvOk conv)
    (l : List Char) :
    findAllDefs (injectScan conv l) =
      (findAllDefs l).map (fun nm => if nm.head? == some '_' then nm else conv nm) := by
  suffices H : ∀ n (l : List Char), l.length ≤ n →
      findAllDefs (injectScan conv l) =
        (findAllDefs l).map (fun nm => if nm.head? == some '_' then nm else conv nm) by
    exact H l.length l le_rfl
  intro n
  induction n with
  | zero =>
    intro l hl
    have hln : l = [] := List.length_eq_zero.mp (Nat.le_zero.mp hl)
    subst hln
    rw [injectScan_nil, findAllDefs_nil]
    rfl
  | succ n ih =>
    intro l hl
    match l with
    | [] =>
      rw [injectScan_nil, findAllDefs_nil]
      rfl
    | c :: cs =>
      cases hM : matchDefAt (c :: cs) with
      | none =>
        rw [injectScan_cons_none hM,
          findAllDefs_cons_none (matchDefAt_injectScan_none hconv hM),
          findAllDefs_cons_none hM]
        apply ih
        simp only [List.length_cons] at hl
        omega
      | some res =>
        obtain ⟨m, nm, rest⟩ := res
        obtain ⟨sp1, sp2, hcs, hm, hsp1n, hsp1w, hnmn, hnmw, hsp2w⟩ :=
          matchDefAt_some_inv hM
        have hrest : rest.length ≤ n := by
          have h1 := matchDefAt_rest_length hM
          simp only [List.length_cons] at h1 hl
          omega
        rw [injectScan_cons_some hM, findAllDefs_cons_some hM]
        by_cases hpriv : (nm.head? == some '_') = true
        · rw [if_pos hpriv, hm]
          have hshape : ('d' :: 'e' :: 'f' :: (sp1 ++ nm ++ sp2 ++ ['('])) ++
              injectScan conv rest =
              'd' :: 'e' :: 'f' ::
                (sp1 ++ (nm ++ (sp2 ++ '(' :: injectScan conv rest))) := by
            simp [List.append_assoc]
          rw [hshape,
            findAllDefs_cons_some (matchDefAt_region hsp1n hsp1w hnmn hnmw hsp2w),
            ih rest hrest]
          have hpriv2 : nm.head? = some '_' := by simpa using hpriv
          simp [hpriv2]
        · rw [if_neg hpriv]
          have hq : nm.head? ≠ some '_' := by
            intro hqe
            rw [hqe] at hpriv
            simp at hpriv
          obtain ⟨hcn, hcw⟩ := hconv nm hnmn hq hnmw
          have hshape : 'd' :: 'e' :: 'f' :: ' ' ::
              (conv nm ++ '(' :: injectScan conv rest) =
              'd' :: 'e' :: 'f' ::
                ([' '] ++ (conv nm ++ ([] ++ '(' :: injectScan conv rest))) := by
            simp
          rw [hshape,
            findAllDefs_cons_some (matchDefAt_region (by simp)
              (by
                intro x hx
                simp only [List.mem_singleton] at hx
                subst hx
                rfl)
              hcn hcw (by intro x hx; simp at hx)),
            ih rest hrest]
          have hpriv2 : ¬ nm.head? = some '_' := by simpa using hpriv
          simp [hpriv2]

/-! Facts about the two name conversions. -/

theorem word_toUpper {c : Char} (h : isWordChar c = true) :
    isWordChar (Char.toUpper c) = true := by
  have h1 := isWordChar_iff.mp h
  have h2 := toUpper_toNat c
  apply isWordChar_iff.mpr
  by_cases hc : 97 ≤ c.toNat ∧ c.toNat ≤ 122
  · rw [if_pos hc] at h2; omega
  · rw [if_neg hc] at h2; omega

theorem toUpper_ne_underscore {c : Char} (h : c ≠ '_') : Char.toUpper c ≠ '_' := by
  intro he
  have h2 := toUpper_toNat c
  have h95 : (Char.toUpper c).toNat = 95 := char_eq_toNat.mp he
  have hne : c.toNat ≠ 95 := fun hx => h (char_eq_toNat.mpr hx)
  by_cases hc : 97 ≤ c.toNat ∧ c.toNat ≤ 122
  · rw [if_pos hc] at h2; omega
  · rw [if_neg hc] at h2; omega

theorem camelToSnakeCore_cons (c : Char) (t : List Char) :
    ∃ tl, camelToSnakeCore (c :: t) = c :: tl := by
  cases t with
  | nil => exact ⟨[], rfl⟩
  | cons b t2 =>
    by_cases h : (isLowerOrDigit c && isUpperChar b) = true
    · exact ⟨'_' :: b :: camelToSnakeCore t2, by simp [camelToSnakeCore, h]⟩
    · exact ⟨camelToSnakeCore (b :: t2), by simp [camelToSnakeCore, h]⟩

theorem camelToSnakeCore_mem :
    ∀ n (l : List Char), l.length ≤ n → ∀ c ∈ camelToSnakeCore l, c ∈ l ∨ c = '_' := by
  intro n
  induction n with
  | zero =>
    intro l hl c hc
    have : l = [] := List.length_eq_zero.mp (Nat.le_zero.mp hl)
    subst this
    simp [camelToSnakeCore] at hc
  | succ n ih =>
    intro l hl c hc
    match l with
    | [] => simp [camelToSnakeCore] at hc
    | [a] =>
      simp only [camelToSnakeCore] at hc
      simp only [List.mem_singleton] at hc
      exact Or.inl (by simp [hc])
    | a :: b :: t2 =>
      simp only [List.length_cons] at hl
      simp only [camelToSnakeCore] at hc
      split at hc
      · rcases List.mem_cons.mp hc with h1 | hc2
        · exact Or.inl (by simp [h1])
        · rcases List.mem_cons.mp hc2 with h1 | hc3
          · exact Or.inr h1
          · rcases List.mem_cons.mp hc3 with h1 | hc4
            · exact Or.inl (by simp [h1])
            · rcases ih t2 (by omega) c hc4 with hin | hus
              · exact Or.inl (by simp [hin])
              · exact Or.inr hus
      · rcases List.mem_cons.mp hc with h1 | hc2
        · exact Or.inl (by simp [h1])
        · rcases ih (b :: t2) (by simpa using Nat.le_of_succ_le_succ (by omega)) c hc2 with
            hin | hus
          · exact Or.inl (List.mem_cons_of_mem _ hin)
          · exact Or.inr hus

theorem camel_to_snake_ne_nil {nm : List Char} (h : nm ≠ []) : camel_to_snake nm ≠ [] := by
  match nm, h with
  | c :: t, _ =>
    obtain ⟨tl, htl⟩ := camelToSnakeCore_cons c t
    unfold camel_to_snake
    rw [htl]
    simp

theorem camel_to_snake_words {nm : List Char} (h : ∀ c ∈ nm, isWordChar c = true) :
    ∀ c ∈ camel_to_snake nm, isWordChar c = true := by
  intro c hc
  unfold camel_to_snake at hc
  obtain ⟨x, hx, hxe⟩ := List.mem_map.mp hc
  rcases camelToSnakeCore_mem nm.length nm le_rfl x hx with hin | hus
  · rw [← hxe]
    exact word_toLower (h x hin)
  · rw [← hxe, hus]
    decide

theorem camel_to_snake_head (c : Char) (t : List Char) :
    (camel_to_snake (c :: t)).head? = some (Char.toLower c) := by
  obtain ⟨tl, htl⟩ := camelToSnakeCore_cons c t
  unfold camel_to_snake
  rw [htl]
  rfl

theorem camel_to_snake_no_upper (nm : List Char) :
    ∀ c ∈ camel_to_snake nm, isUpperChar c = false := by
  intro c hc
  obtain ⟨x, _, hxe⟩ := List.mem_map.mp hc
  rw [← hxe]
  exact toLower_not_upper x

theorem convOk_camel_to_snake : ConvOk camel_to_snake := by
  intro nm hn _ hw
  exact ⟨camel_to_snake_ne_nil hn, camel_to_snake_words hw⟩

theorem no_upper_no_transition :
    ∀ (l : List Char), (∀ c ∈ l, isUpperChar c = false) → hasCamelTransition l = false := by
  intro l
  induction l with
  | nil => intro _; rfl
  | cons a t ih =>
    intro h
    cases t with
    | nil => rfl
    | cons b t2 =>
      have hb : isUpperChar b = false := h b (List.mem_cons_of_mem _ (List.mem_cons_self _ _))
      have ht : hasCamelTransition (b :: t2) = false :=
        ih (fun c hc => h c (List.mem_cons_of_mem _ hc))
      show ((isLowerChar a && isUpperChar b) || hasCamelTransition (b :: t2)) = false
      rw [hb, ht]
      simp

theorem camel_to_snake_no_transition (nm : List Char) :
    hasCamelTransition (camel_to_snake nm) = false :=
  no_upper_no_transition _ (camel_to_snake_no_upper nm)

theorem splitUnderscore_ne_nil (l : List Char) : splitUnderscore l ≠ [] := by
  cases l with
  | nil => simp [splitUnderscore]
  | cons a t =>
    simp only [splitUnderscore]
    split
    · simp
    · split
      · simp
      · simp

theorem splitUnderscore_mem :
    ∀ (l : List Char), ∀ g ∈ splitUnderscore l, ∀ c ∈ g, c ∈ l ∧ c ≠ '_' := by
  intro l
  induction l with
  | nil =>
    intro g hg c hc
    simp only [splitUnderscore, List.mem_singleton] at hg
    subst hg
    simp at hc
  | cons a t ih =>
    intro g hg c hc
    simp only [splitUnderscore] at hg
    split at hg
    · rename_i ha
      rcases List.mem_cons.mp hg with h1 | h2
      · subst h1
        simp at hc
      · obtain ⟨hin, hne⟩ := ih g h2 c hc
        exact ⟨List.mem_cons_of_mem _ hin, hne⟩
    · rename_i ha
      have hane : a ≠ '_' := by
        intro he
        rw [he] at ha
        simp at ha
      split at hg
      · rename_i hnil
        exact absurd hnil (splitUnderscore_ne_nil t)
      · rename_i g0 gs hsplit
        rcases List.mem_cons.mp hg with h1 | h2
        · subst h1
          rcases List.mem_cons.mp hc with h1 | h2
          · subst h1
            exact ⟨List.mem_cons_self _ _, hane⟩
          · obtain ⟨hin, hne⟩ := ih g0 (by rw [hsplit]; exact List.mem_cons_self _ _) c h2
            exact ⟨List.mem_cons_of_mem _ hin, hne⟩
        · obtain ⟨hin, hne⟩ := ih g (by rw [hsplit]; exact List.mem_cons_of_mem _ h2) c hc
          exact ⟨List.mem_cons_of_mem _ hin, hne⟩

theorem splitUnderscore_cons_head {c : Char} {t : List Char} (hc : c ≠ '_') :
    ∃ g gs, splitUnderscore (c :: t) = (c :: g) :: gs := by
  simp only [splitUnderscore]
  rw [if_neg (by simp [hc])]
  cases hs : splitUnderscore t with
  | nil => exact absurd hs (splitUnderscore_ne_nil t)
  | cons g0 gs => exact ⟨g0, gs, rfl⟩

theorem pyTitleGo_mem {x : Char} :
    ∀ (l : List Char) (b : Bool), x ∈ pyTitleGo b l →
      ∃ c ∈ l, x = c.toLower ∨ x = c.toUpper ∨ x = c := by
  intro l
  induction l with
  | nil =>
    intro b hx
    simp [pyTitleGo] at hx
  | cons c t ih =>
    intro b hx
    simp only [pyTitleGo] at hx
    split at hx
    · rcases List.mem_cons.mp hx with h1 | h2
      · refine ⟨c, List.mem_cons_self _ _, ?_⟩
        split at h1
        · exact Or.inl h1
        · exact Or.inr (Or.inl h1)
      · obtain ⟨c2, hc2, hx2⟩ := ih true h2
        exact ⟨c2, List.mem_cons_of_mem _ hc2, hx2⟩
    · rcases List.mem_cons.mp hx with h1 | h2
      · exact ⟨c, List.mem_cons_self _ _, Or.inr (Or.inr h1)⟩
      · obtain ⟨c2, hc2, hx2⟩ := ih false h2
        exact ⟨c2, List.mem_cons_of_mem _ hc2, hx2⟩

theorem snake_to_camel_head {c : Char} {t : List Char} (hc : c ≠ '_') :
    ∃ tl, snake_to_camel (c :: t) = c :: tl := by
  obtain ⟨g, gs, hsplit⟩ := splitUnderscore_cons_head (t := t) hc
  unfold snake_to_camel
  rw [hsplit]
  exact ⟨g ++ (gs.map pyTitle).flatten, rfl⟩

theorem snake_to_camel_words {nm : List Char} (h : ∀ c ∈ nm, isWordChar c = true) :
    ∀ x ∈ snake_to_camel nm, isWordChar x = true := by
  intro x hx
  unfold snake_to_camel at hx
  cases hs : splitUnderscore nm with
  | nil => exact absurd hs (splitUnderscore_ne_nil nm)
  | cons g gs =>
    rw [hs] at hx
    rcases List.mem_append.mp hx with h1 | h2
    · obtain ⟨hin, -⟩ := splitUnderscore_mem nm g (by rw [hs]; exact List.mem_cons_self _ _) x h1
      exact h x hin
    · obtain ⟨L, hL, hxL⟩ := List.mem_flatten.mp h2
      obtain ⟨g2, hg2, hLe⟩ := List.mem_map.mp hL
      rw [← hLe] at hxL
      obtain ⟨c2, hc2, hx2⟩ := pyTitleGo_mem g2 false hxL
      obtain ⟨hin, -⟩ := splitUnderscore_mem nm g2
        (by rw [hs]; exact List.mem_cons_of_mem _ hg2) c2 hc2
      have hcw : isWordChar c2 = true := h c2 hin
      rcases hx2 with h3 | h3 | h3
      · rw [h3]; exact word_toLower hcw
      · rw [h3]; exact word_toUpper hcw
      · rw [h3]; exact hcw

theorem snake_to_camel_no_underscore (nm : List Char) :
    ∀ x ∈ snake_to_camel nm, x ≠ '_' := by
  intro x hx
  unfold snake_to_camel at hx
  cases hs : splitUnderscore nm with
  | nil => exact absurd hs (splitUnderscore_ne_nil nm)
  | cons g gs =>
    rw [hs] at hx
    rcases List.mem_append.mp hx with h1 | h2
    · obtain ⟨-, hne⟩ := splitUnderscore_mem nm g (by rw [hs]; exact List.mem_cons_self _ _) x h1
      exact hne
    · obtain ⟨L, hL, hxL⟩ := List.mem_flatten.mp h2
      obtain ⟨g2, hg2, hLe⟩ := List.mem_map.mp hL
      rw [← hLe] at hxL
      obtain ⟨c2, hc2, hx2⟩ := pyTitleGo_mem g2 false hxL
      obtain ⟨-, hne⟩ := splitUnderscore_mem nm g2
        (by rw [hs]; exact List.mem_cons_of_mem _ hg2) c2 hc2
      rcases hx2 with h3 | h3 | h3
      · rw [h3]; exact toLower_ne_underscore hne
      · rw [h3]; exact toUpper_ne_underscore hne
      · rw [h3]; exact hne

theorem convOk_snake_to_camel : ConvOk snake_to_camel := by
  intro nm hn hh hw
  match nm, hn with
  | c :: t, _ =>
    have hc : c ≠ '_' := by
      intro he
      apply hh
      rw [he]
      rfl
    obtain ⟨tl, htl⟩ := snake_to_camel_head (t := t) hc
    constructor
    · rw [htl]
      simp
    · exact snake_to_camel_words hw

/-- Every name the scanner captures is a nonempty run of word characters. -/
theorem findAllDefs_names :
    ∀ n (l : List Char), l.length ≤ n → ∀ nm ∈ findAllDefs l,
      nm ≠ [] ∧ ∀ c ∈ nm, isWordChar c = true := by
  intro n
  induction n with
  | zero =>
    intro l hl nm hnm
    have : l = [] := List.length_eq_zero.mp (Nat.le_zero.mp hl)
    subst this
    rw [findAllDefs_nil] at hnm
    simp at hnm
  | succ n ih =>
    intro l hl nm hnm
    match l with
    | [] =>
      rw [findAllDefs_nil] at hnm
      simp at hnm
    | c :: cs =>
      simp only [List.length_cons] at hl
      cases hM : matchDefAt (c :: cs) with
      | none =>
        rw [findAllDefs_cons_none hM] at hnm
        exact ih cs (by omega) nm hnm
      | some res =>
        obtain ⟨m, nm2, rest⟩ := res
        rw [findAllDefs_cons_some hM] at hnm
        rcases List.mem_cons.mp hnm with h1 | h2
        · obtain ⟨-, -, -, -, -, -, hn2, hw2, -⟩ := matchDefAt_some_inv hM
          subst h1
          exact ⟨hn2, hw2⟩
        · have hr := matchDefAt_rest_length hM
          simp only [List.length_cons] at hr
          exact ih rest (by omega) nm h2

/-! The detect side: what the rewritten text's name list looks like. -/

theorem camel_to_snake_head_public :
    ∀ nm : List Char, nm ≠ [] → nm.head? ≠ some '_' →
      (camel_to_snake nm).head? ≠ some '_' := by
  intro nm hn hh
  match nm, hn with
  | c :: t, _ =>
    rw [camel_to_snake_head]
    intro he
    simp only [Option.some.injEq] at he
    have hc : c ≠ '_' := fun h2 => hh (by rw [h2]; rfl)
    exact toLower_ne_underscore hc he

theorem snake_to_camel_head_public :
    ∀ nm : List Char, nm ≠ [] → nm.head? ≠ some '_' →
      (snake_to_camel nm).head? ≠ some '_' := by
  intro nm hn hh
  match nm, hn with
  | c :: t, _ =>
    have hc : c ≠ '_' := fun h2 => hh (by rw [h2]; rfl)
    obtain ⟨tl, htl⟩ := snake_to_camel_head (t := t) hc
    rw [htl]
    intro he
    simp only [List.head?_cons, Option.some.injEq] at he
    exact hc he

theorem publicDefNames_inject {conv : List Char → List Char} (hc : ConvOk conv)
    (hh : ∀ nm : List Char, nm ≠ [] → nm.head? ≠ some '_' →
      (∀ c ∈ nm, isWordChar c = true) → (conv nm).head? ≠ some '_')
    (code : List Char) :
    publicDefNames (injectScan conv code) = (publicDefNames code).map conv := by
  unfold publicDefNames
  rw [findAllDefs_injectScan hc, List.filter_map]
  have hnames := findAllDefs_names code.length code le_rfl
  have h1 : List.filter ((fun n => !(n.head? == some '_')) ∘
      (fun nm => if nm.head? == some '_' then nm else conv nm)) (findAllDefs code) =
      List.filter (fun n => !(n.head? == some '_')) (findAllDefs code) := by
    apply List.filter_congr
    intro nm hnm
    obtain ⟨hn, hw⟩ := hnames nm hnm
    by_cases hp : (nm.head? == some '_') = true
    · simp only [Function.comp_apply, if_pos hp]
    · simp only [Function.comp_apply, if_neg hp]
      have hph : nm.head? ≠ some '_' := by
        intro he
        apply hp
        rw [he]
        rfl
      have hch := hh nm hn hph hw
      have hc1 : ((conv nm).head? == some '_') = false := by
        cases hx : (conv nm).head? == some '_'
        · rfl
        · exact absurd (by simpa using hx) hch
      have hc2 : (nm.head? == some '_') = false := by
        cases hx : nm.head? == some '_'
        · rfl
        · exact absurd hx hp
      rw [hc1, hc2]
  rw [h1]
  apply List.map_congr_left
  intro nm hnm
  obtain ⟨-, hp⟩ := List.mem_filter.mp hnm
  simp only [Bool.not_eq_true'] at hp
  rw [if_neg (by simp [hp])]

/-- Round trip, snake side: after injection every public name is the
lowercased converted name (no camel transition survives), and at least one
carries an underscore. -/
theorem detect_inject_snake {code : List Char}
    (h : ∃ nm ∈ publicDefNames code, ConvertsTo nm Style.snake_case = true) :
    detect (inject code Style.snake_case) = Style.snake_case := by
  obtain ⟨nm0, hmem, hcv⟩ := h
  show detect (injectScan camel_to_snake code) = _
  have hpub := publicDefNames_inject convOk_camel_to_snake
    (fun nm hn hhp _ => camel_to_snake_head_public nm hn hhp) code
  have hnz : findAllDefs code ≠ [] := by
    intro he
    have : nm0 ∈ findAllDefs code := (List.mem_filter.mp hmem).1
    rw [he] at this
    simp at this
  unfold detect
  rw [findAllDefs_injectScan convOk_camel_to_snake, hpub]
  rw [if_neg (by simp [List.isEmpty_iff, hnz])]
  rw [if_neg (by
    simp only [List.isEmpty_iff]
    intro he
    have : camel_to_snake nm0 ∈ (publicDefNames code).map camel_to_snake :=
      List.mem_map_of_mem _ hmem
    rw [he] at this
    simp at this)]
  have hcam : ((publicDefNames code).map camel_to_snake).filter
      (fun n => !(n.contains '_') && hasCamelTransition n) = [] := by
    apply List.filter_eq_nil_iff.mpr
    intro a ha
    obtain ⟨x, -, rfl⟩ := List.mem_map.mp ha
    rw [camel_to_snake_no_transition x]
    simp
  have hsn : 0 < (((publicDefNames code).map camel_to_snake).filter
      (fun n => n.contains '_')).length := by
    rw [← List.countP_eq_length_filter]
    exact List.countP_pos_iff.mpr ⟨camel_to_snake nm0, List.mem_map_of_mem _ hmem, hcv⟩
  rw [hcam]
  rw [if_pos (by simpa using hsn)]

/-- Round trip, camel side: after injection no public name carries an
underscore, and at least one shows a camel transition. -/
theorem detect_inject_camel {code : List Char}
    (h : ∃ nm ∈ publicDefNames code, ConvertsTo nm Style.camel_case = true) :
    detect (inject code Style.camel_case) = Style.camel_case := by
  obtain ⟨nm0, hmem, hcv⟩ := h
  show detect (injectScan snake_to_camel code) = _
  have hpub := publicDefNames_inject convOk_snake_to_camel
    (fun nm hn hhp _ => snake_to_camel_head_public nm hn hhp) code
  have hnz : findAllDefs code ≠ [] := by
    intro he
    have : nm0 ∈ findAllDefs code := (List.mem_filter.mp hmem).1
    rw [he] at this
    simp at this
  unfold detect
  rw [findAllDefs_injectScan convOk_snake_to_camel, hpub]
  rw [if_neg (by simp [List.isEmpty_iff, hnz])]
  rw [if_neg (by
    simp only [List.isEmpty_iff]
    intro he
    have : snake_to_camel nm0 ∈ (publicDefNames code).map snake_to_camel :=
      List.mem_map_of_mem _ hmem
    rw [he] at this
    simp at this)]
  have hsn : ((publicDefNames code).map snake_to_camel).filter
      (fun n => n.contains '_') = [] := by
    apply List.filter_eq_nil_iff.mpr
    intro a ha
    obtain ⟨x, -, rfl⟩ := List.mem_map.mp ha
    intro hcon
    exact snake_to_camel_no_underscore x '_' (List.elem_iff.mp hcon) rfl
  have hcm : 0 < (((publicDefNames code).map snake_to_camel).filter
      (fun n => !(n.contains '_') && hasCamelTransition n)).length := by
    rw [← List.countP_eq_length_filter]
    apply List.countP_pos_iff.mpr
    refine ⟨snake_to_camel nm0, List.mem_map_of_mem _ hmem, ?_⟩
    have hnu : (snake_to_camel nm0).contains '_' = false := by
      cases hx : (snake_to_camel nm0).contains '_'
      · rfl
      · exact absurd rfl (snake_to_camel_no_underscore nm0 '_' (List.elem_iff.mp hx))
    rw [hnu]
    simpa using hcv
  rw [hsn]
  rw [if_neg (by simp)]
  rw [if_pos (by simpa using hcm)]

/-- C1: for every input text containing at least one convertible public
(non-private) function-definition identifier, and for each signalling style
`s` in {snake_case, camel_case}, `detect (inject text s) = s`.  An identifier
is convertible to `s` (`ConvertsTo`) when its conversion carries the marker
`detect` counts for `s` (an underscore, resp. an internal case transition). -/
theorem C1_round_trip (code : List Char) (s : Style)
    (hs : s = Style.snake_case ∨ s = Style.camel_case)
    (hconv : ∃ nm ∈ publicDefNames code, ConvertsTo nm s = true) :
    detect (inject code s) = s := by
  rcases hs with rfl | rfl
  · exact detect_inject_snake hconv
  · exact detect_inject_camel hconv

/-- Witness for C1 at concrete texts: one camelCase definition injected with
snake_case, one snake_case definition injected with camelCase. -/
theorem C1_round_trip_witness :
    detect (inject ("def fooBar(x):\n    return x\n".data) Style.snake_case) =
        Style.snake_case ∧
    detect (inject ("def foo_bar(x):\n    return x\n".data) Style.camel_case) =
        Style.camel_case :=
  ⟨C1_round_trip _ _ (Or.inl rfl) (by decide),
   C1_round_trip _ _ (Or.inr rfl) (by decide)⟩

/-- C3 counterexample: the identifier `foo` is unchanged by the snake_case
conversion, so the claim "all other text, including whitespace around the
identifier, is preserved verbatim" would force `inject` to return the text
unchanged; the code instead collapses the two spaces of `def  foo(` into
one. -/
theorem C3_counterexample :
    camel_to_snake ("foo".data) = "foo".data ∧
    inject ("def  foo(".data) Style.snake_case = "def foo(".data ∧
    inject ("def  foo(".data) Style.snake_case ≠ "def  foo(".data := by
  refine ⟨by decide, by decide, by decide⟩

/-- C3 as amended: `inject` with the neutral style is the identity; for the
two signalling styles the output is the input with every matched
function-definition header `def<spaces><name><spaces>(` rewritten — a
non-private header becomes `def <converted name>(` with the internal
whitespace normalised to a single space, a private header is kept verbatim —
and every character outside the matched headers preserved unchanged (the
scanner copies it and moves on). -/
theorem C3_amended :
    (∀ code : List Char, inject code Style.neutral = code) ∧
    (∀ (s : Style) (conv : List Char → List Char),
      (s = Style.snake_case ∧ conv = camel_to_snake ∨
       s = Style.camel_case ∧ conv = snake_to_camel) →
      (∀ (c : Char) (cs : List Char), matchDefAt (c :: cs) = none →
        inject (c :: cs) s = c :: inject cs s) ∧
      (∀ (c : Char) (cs m nm rest : List Char),
        matchDefAt (c :: cs) = some (m, nm, rest) →
        (nm.head? = some '_' → inject (c :: cs) s = m ++ inject rest s) ∧
        (nm.head? ≠ some '_' →
          inject (c :: cs) s =
            'd' :: 'e' :: 'f' :: ' ' :: (conv nm ++ '(' :: inject rest s)))) := by
  constructor
  · intro code
    rfl
  · intro s conv hsc
    have hinj : ∀ code : List Char, inject code s = injectScan conv code := by
      rcases hsc with ⟨rfl, rfl⟩ | ⟨rfl, rfl⟩ <;> intro code <;> rfl
    constructor
    · intro c cs hM
      rw [hinj, hinj, injectScan_cons_none hM]
    · intro c cs m nm rest hM
      constructor
      · intro hp
        rw [hinj, hinj, injectScan_cons_some hM, if_pos (by rw [hp]; rfl)]
      · intro hp
        rw [hinj, hinj, injectScan_cons_some hM, if_neg (by
          intro hb
          exact hp (by simpa using hb))]


/-! Claims about the worker economy, the metrics and the repository. -/

/-- C5: `spend_credits` reports success exactly when the balance covers the
amount; on success the balance drops by the amount and the cumulative-spent
counter rises by it, on failure the worker is returned unchanged; the function
is total (the model returns a flag, it has no error case) and a nonnegative
balance stays nonnegative. -/
theorem C5_spend_credits_semantics (w : Worker) (amount : ℚ) :
    ((spend_credits w amount).2 = true ↔ amount ≤ w.credits) ∧
    (amount ≤ w.credits →
      spend_credits w amount =
        ({ w with credits := w.credits - amount,
                  total_credits_spent := w.total_credits_spent + amount }, true)) ∧
    (¬ amount ≤ w.credits → spend_credits w amount = (w, false)) ∧
    (0 ≤ w.credits → 0 ≤ (spend_credits w amount).1.credits) := by
  by_cases h : amount ≤ w.credits
  · have hs : spend_credits w amount =
        ({ w with credits := w.credits - amount,
                  total_credits_spent := w.total_credits_spent + amount }, true) := by
      simp [spend_credits, h]
    rw [hs]
    exact ⟨by simp [h], fun _ => rfl, fun hc => absurd h hc, fun _ => sub_nonneg.mpr h⟩
  · have hs : spend_credits w amount = (w, false) := by
      simp [spend_credits, h]
    rw [hs]
    exact ⟨by simp [h], fun hc => absurd hc h, fun _ => rfl, fun h0 => h0⟩

/-- C9: on the empty population `calculate_distance` takes the guard branch
and returns `0` (perfect honesty); the division by the population size is
never evaluated for empty input. -/
theorem C9_empty_population_distance : calculate_distance [] = 0 := by
  rfl

/-- C10: `predict` only sees the agent key through `key % num_agents`, so two
keys congruent modulo the configured number of agents produce the same score
for every text and every model state. -/
theorem C10_predict_key_congruence (s : SteerSys) (k m : ℤ) (code : List Char) :
    predict s (k + m * (s.params.num_agents : ℤ)) code = predict s k code := by
  unfold predict rawCombined
  rw [Int.add_mul_emod_self]

/-- Shape of a whole submission run: the log carries the ids
`next_commit_id, next_commit_id + 1, ...` appended to the previous ids, and
the counter advances by the number of submissions. -/
theorem submitAll_spec : ∀ (l : List (CommitRec × ℚ)) (st : RepoState),
    commitIds (submitAll st l) =
      commitIds st ++ (List.range l.length).map (fun i : ℕ => st.next_commit_id + (i : ℤ)) ∧
    (submitAll st l).next_commit_id = st.next_commit_id + l.length := by
  intro l
  induction l with
  | nil => intro st; simp [submitAll]
  | cons p rest ih =>
    intro st
    obtain ⟨c, g⟩ := p
    have h1 : commitIds (submit_commit st c g).1 = commitIds st ++ [st.next_commit_id] := by
      simp [submit_commit, commitIds]
    have h2 : (submit_commit st c g).1.next_commit_id = st.next_commit_id + 1 := rfl
    obtain ⟨ihA, ihB⟩ := ih (submit_commit st c g).1
    constructor
    · show commitIds (submitAll (submit_commit st c g).1 rest) = _
      rw [ihA, h1, h2, List.append_assoc]
      congr 1
      simp only [List.length_cons]
      rw [List.range_succ_eq_map]
      simp only [List.map_cons, List.map_map, List.singleton_append, Nat.cast_zero, add_zero]
      congr 1
      refine List.map_congr_left ?_
      intro i _
      simp only [Function.comp_apply, Nat.succ_eq_add_one]
      push_cast
      ring
    · show (submitAll (submit_commit st c g).1 rest).next_commit_id = _
      rw [ihB, h2]
      simp only [List.length_cons]
      push_cast
      ring

/-- C8: over any sequence of submissions to a fresh repository the assigned
sequence ids are strictly increasing and pairwise distinct, and
`submit_commit` accepts every submission. -/
theorem C8_sequence_ids (l : List (CommitRec × ℚ)) :
    List.Chain' (fun a b => a < b) (commitIds (submitAll repoInit l)) ∧
    (commitIds (submitAll repoInit l)).Nodup ∧
    ∀ (st : RepoState) (c : CommitRec) (g : ℚ), (submit_commit st c g).2 = true := by
  have hids : commitIds (submitAll repoInit l) =
      (List.range l.length).map (fun i : ℕ => (i : ℤ)) := by
    rw [(submitAll_spec l repoInit).1]
    simp [repoInit, commitIds]
  refine ⟨?_, ?_, fun st c g => rfl⟩
  · rw [hids]
    have hp : (((List.range l.length).map (fun i : ℕ => (i : ℤ)))).Pairwise (· < ·) := by
      refine List.Pairwise.map _ ?_ (List.pairwise_lt_range l.length)
      intro a b hab
      exact_mod_cast hab
    exact hp.chain'
  · rw [hids]
    refine List.Nodup.map ?_ (List.nodup_range l.length)
    intro a b hab
    exact Nat.cast_injective hab


/-! Claims about steering, evolution and the engine's agent keys. -/

/-- C7: starting from a fresh steering mechanism (no registered hook), compute
the collusion vector, apply steering at any coefficient — which succeeds — and
reset; `predict` on any key and text then returns exactly the pre-intervention
score. -/
theorem C7_steering_round_trip (s : SteerSys) (hh : s.hooks = [])
    (hhandle : s.hook_handle = none) (A B : List (List Char)) (coeff : ℚ)
    (k : ℤ) (code : List Char) :
    ∃ s2 : SteerSys, apply_steering (compute_collusion_vector s A B) coeff = .ok s2 ∧
      predict (reset_steering s2) k code = predict s k code := by
  set s1 := compute_collusion_vector s A B with hs1
  have h2 : s1.hook_handle = none := hhandle
  have h3 : s1.hooks = [] := hh
  have h4 : reset_steering s1 = s1 := by
    unfold reset_steering
    rw [h2]
  refine ⟨{ s1 with
             steering_coefficient := coeff
             hooks := s1.hooks ++ [(s1.next_handle, coeff)]
             hook_handle := some s1.next_handle
             next_handle := s1.next_handle + 1 }, ?_, ?_⟩
  · show apply_steering s1 coeff = _
    unfold apply_steering
    have h1 : s1.collusion_vector =
        some (vecSub (vecMean (get_activations_batch s A))
          (vecMean (get_activations_batch s B))) := rfl
    rw [h1, h4]
    simp only [h1]
  · have h5 : reset_steering { s1 with
        steering_coefficient := coeff
        hooks := s1.hooks ++ [(s1.next_handle, coeff)]
        hook_handle := some s1.next_handle
        next_handle := s1.next_handle + 1 } =
      { s1 with
        steering_coefficient := coeff
        hooks := (s1.hooks ++ [(s1.next_handle, coeff)]).filter
          (fun hk => hk.1 ≠ s1.next_handle)
        hook_handle := none
        next_handle := s1.next_handle + 1 } := rfl
    rw [h5]
    have h6 : (s1.hooks ++ [(s1.next_handle, coeff)]).filter
        (fun hk => hk.1 ≠ s1.next_handle) = [] := by
      rw [h3]
      simp
    rw [h6]
    unfold predict
    simp only [hh, List.foldl_nil]
    rfl

/-- Witness for C7 at a concrete fresh system over `sampleParams`. -/
theorem C7_steering_round_trip_witness :
    ∃ s2 : SteerSys,
      apply_steering (compute_collusion_vector sampleSys [['a']] [[]]) 2 = .ok s2 ∧
      predict (reset_steering s2) 7 ['x'] = predict sampleSys 7 ['x'] :=
  C7_steering_round_trip sampleSys rfl rfl [['a']] [[]] 2 7 ['x']

/-- The reproduction loop rewrites culled slots in place: it never changes the
length of the population list. -/
theorem evolveFold_length (cfg : EvolverCfg) (rnd : EvoRand) (elites : List Worker) :
    ∀ (idxs : List ℕ) (st : EvoLoopState),
      (idxs.foldl (evolveSlot cfg rnd elites) st).agents.length = st.agents.length := by
  intro idxs
  induction idxs with
  | nil => intro st; rfl
  | cons i is ih =>
    intro st
    rw [List.foldl_cons, ih]
    simp [evolveSlot]

/-- C4: `evolve_population` preserves the population size on every input
(including the error outcomes); for n ≥ 5 a successful run reports
`elite_count = cull_count = max 1 (n / 5)` and is flagged evolved; for n < 5
the call is a no-op returning the population unchanged with a not-evolved
result carrying a reason. -/
theorem C4_evolution_invariants (cfg : EvolverCfg) (rnd : EvoRand) (agents : List Worker) :
    (evolve_population cfg rnd agents).1.length = agents.length ∧
    (agents.length < 5 →
      evolve_population cfg rnd agents =
        (agents, .ok { evolved := false
                       reason := some "Population too small for evolution"
                       population_size := agents.length })) ∧
    (5 ≤ agents.length → ∀ st, (evolve_population cfg rnd agents).2 = .ok st →
      st.elite_count = max 1 (agents.length / 5) ∧
      st.cull_count = max 1 (agents.length / 5) ∧ st.evolved = true) := by
  by_cases h : agents.length < 5
  · have he : evolve_population cfg rnd agents =
        (agents, .ok { evolved := false
                       reason := some "Population too small for evolution"
                       population_size := agents.length }) := by
      unfold evolve_population
      rw [if_pos h]
    rw [he]
    exact ⟨rfl, fun _ => rfl, fun h5 => absurd h (by omega)⟩
  · rcases hm : agents.mapM (fun a => idSuffixVal a.worker_id) with _ | ⟨_ | ⟨v, vs⟩⟩
    · have he : evolve_population cfg rnd agents =
          (agents, .error "ValueError: invalid literal for int()") := by
        unfold evolve_population
        rw [if_neg h, hm]
      rw [he]
      exact ⟨rfl, fun hlt => absurd hlt h, fun _ st hst => by cases hst⟩
    · have he : evolve_population cfg rnd agents =
          (agents, .error "ValueError: max() arg is an empty sequence") := by
        unfold evolve_population
        rw [if_neg h, hm]
      rw [he]
      exact ⟨rfl, fun hlt => absurd hlt h, fun _ st hst => by cases hst⟩
    · have he : evolve_population cfg rnd agents =
          (let sorted := sortByCreditsDesc agents
           let num_agents := agents.length
           let elite_count := max 1 (num_agents / 5)
           let cull_count := max 1 (num_agents / 5)
           let elites := sorted.take elite_count
           let cull_list := sorted.drop (sorted.length - cull_count)
           let cull_indices :=
             cull_list.filterMap (fun ca => agents.findIdx? (fun a => a.worker_id == ca.worker_id))
           let next_id := vs.foldl max v + 1
           let final := cull_indices.foldl (evolveSlot cfg rnd elites)
             { agents := agents, next_id := next_id, new_agents := [], iter := 0 }
           (final.agents,
            .ok { evolved := true
                  population_size := final.agents.length
                  elite_count := elite_count
                  cull_count := cull_count
                  new_agents := final.new_agents.map (fun a => a.worker_id)
                  style_distribution := styleDistribution final.agents
                  elite_styles := elites.foldl (fun acc a => bumpCount acc a.preferred_style) []
                  mutation_rate := cfg.mutation_rate })) := by
        unfold evolve_population
        rw [if_neg h, hm]
      rw [he]
      simp only []
      refine ⟨?_, fun hlt => absurd hlt h, fun _ st hst => ?_⟩
      · exact evolveFold_length cfg rnd _ _ _
      · have hok := Except.ok.inj hst
        rw [← hok]
        exact ⟨rfl, rfl, rfl⟩


/-- C6: the clone ids are derived by parsing the numeric suffixes of the
existing identifiers, not drawn from a counter owned by the evolver: two
populations of fresh equal-credit workers that differ only in the numeric
suffix of one id (`worker_9` vs `worker_4`) receive different clone ids
(`evolved_10` vs `evolved_5`) from identical evolver configuration and
identical random draws. -/
theorem C6_clone_id_from_suffix_parsing :
    (popNine.map (fun a => a.credits) = popFour.map (fun a => a.credits) ∧
     popNine.map (fun a => a.preferred_style) = popFour.map (fun a => a.preferred_style) ∧
     popNine ≠ popFour) ∧
    (evolve_population ⟨0⟩ rndConst popNine).2.toOption.map
      (fun st => st.new_agents) = some ["evolved_10"] ∧
    (evolve_population ⟨0⟩ rndConst popFour).2.toOption.map
      (fun st => st.new_agents) = some ["evolved_5"] := by
  refine ⟨⟨?_, ?_, ?_⟩, ?_, ?_⟩ <;> decide

/-- C2: the keys the engine hands to the trust model are the process hash of
the mutable string identifier of each agent, recomputed every step; under a string
hash with a collision on the ids in play (here: length modulo 5, colliding on
`"alpha"` and `"omega"`), two distinct agents receive the same key, so the
keys are not a collision-free explicit per-agent index. -/
theorem C2_engine_keys_collide :
    (mkWorker "alpha").worker_id ≠ (mkWorker "omega").worker_id ∧
    engineAgentKeys (fun s => (s.length : ℤ) % 5) [mkWorker "alpha", mkWorker "omega"] =
      [0, 0] := by
  refine ⟨?_, ?_⟩ <;> decide

end Panopticon
